import Mathlib

/-!
Verification of the odoo/sfu coordination layer: a shallow embedding of the
authentication service (src/services/auth.ts), the channel/session registry
(src/models/channel.js), the message bus (src/shared/bus.js), the session
message handlers (src/models/session.ts) and the websocket gateway
(src/services/ws.ts), together with theorems about their behaviour.

Machine integers do not occur: all quantities in the source are JS numbers
used as non-negative counters, sizes or timestamps, modelled as `Nat`.
Buffers are modelled as `List Nat` (byte lists), strings as `List Char`.
The external `node:crypto` HMAC-SHA256 primitive is a parameter `HmacFn`
of the embedding, exactly as the source consumes it: an opaque
`(data, key) → Buffer` function looked up in `ALGORITHM_FUNCTIONS`.
-/

namespace SfuAuth

/-- Bytes of a Node `Buffer`. -/
abbrev Bytes := List Nat

/-- The standard base64 alphabet used by Node `Buffer.toString("base64")`,
which is what `base64Encode` in src/services/auth.ts calls. -/
def base64Alphabet : List Char :=
  "ABCDEFGHIJKLMNOPQRSTUVWXYZabcdefghijklmnopqrstuvwxyz0123456789+/".data

/-- Character for one 6-bit group. -/
def encodeSextet (n : Nat) : Char := base64Alphabet.getD n 'A'

/-- Index of a base64 character, `none` for characters outside the alphabet. -/
def decodeSextet (c : Char) : Option Nat :=
  let i := base64Alphabet.indexOf c
  if i < 64 then some i else none

/-- Standard base64 with `=` padding, as produced by
`Buffer.toString("base64")` (the `base64Encode` helper of the source). -/
def base64Encode : Bytes → List Char
  | [] => []
  | [b1] =>
    let n := b1 * 65536
    [encodeSextet (n / 262144), encodeSextet (n / 4096 % 64), '=', '=']
  | [b1, b2] =>
    let n := b1 * 65536 + b2 * 256
    [encodeSextet (n / 262144), encodeSextet (n / 4096 % 64), encodeSextet (n / 64 % 64), '=']
  | b1 :: b2 :: b3 :: rest =>
    let n := b1 * 65536 + b2 * 256 + b3
    encodeSextet (n / 262144) :: encodeSextet (n / 4096 % 64) :: encodeSextet (n / 64 % 64)
      :: encodeSextet (n % 64) :: base64Encode rest

/-- Base64 decoding (the `base64Decode` helper wrapping `Buffer.from(str, "base64")`). -/
def base64Decode : List Char → Option Bytes
  | [] => some []
  | c1 :: c2 :: c3 :: c4 :: rest =>
    if rest = [] then
      if c3 = '=' then
        if c4 = '=' then
          match decodeSextet c1, decodeSextet c2 with
          | some s1, some s2 => some [s1 * 4 + s2 / 16]
          | _, _ => none
        else none
      else if c4 = '=' then
        match decodeSextet c1, decodeSextet c2, decodeSextet c3 with
        | some s1, some s2, some s3 => some [s1 * 4 + s2 / 16, s2 % 16 * 16 + s3 / 4]
        | _, _, _ => none
      else
        match decodeSextet c1, decodeSextet c2, decodeSextet c3, decodeSextet c4 with
        | some s1, some s2, some s3, some s4 =>
          some [s1 * 4 + s2 / 16, s2 % 16 * 16 + s3 / 4, s3 % 4 * 64 + s4]
        | _, _, _, _ => none
    else
      match decodeSextet c1, decodeSextet c2, decodeSextet c3, decodeSextet c4,
          base64Decode rest with
      | some s1, some s2, some s3, some s4, some bs =>
        some ((s1 * 4 + s2 / 16) :: (s2 % 16 * 16 + s3 / 4) :: (s3 % 4 * 64 + s4) :: bs)
      | _, _, _, _, _ => none
  | _ => none

/-- UTF-8 bytes of an ASCII string (`Buffer.from(string)` for the ASCII
subset the JSON serialisations of the source live in). -/
def strBytes (s : List Char) : Bytes := s.map Char.toNat

/-- Characters of an ASCII byte list (`buffer.toString()`). -/
def bytesStr (bs : Bytes) : List Char := bs.map Char.ofNat

/-- `String.prototype.split(sep)` for a one-character separator. -/
def splitOnChar (sep : Char) : List Char → List (List Char)
  | [] => [[]]
  | c :: cs =>
    match splitOnChar sep cs with
    | [] => [[]]
    | group :: groups =>
      if c = sep then [] :: group :: groups else (c :: group) :: groups

/-- Decimal digit character for `m % 10`. -/
def digitChar : Nat → Char
  | 0 => '0' | 1 => '1' | 2 => '2' | 3 => '3' | 4 => '4'
  | 5 => '5' | 6 => '6' | 7 => '7' | 8 => '8' | _ => '9'

/-- Decimal rendering of a `Nat`, accumulator form with explicit fuel
(structural recursion, so that tokens evaluate inside the kernel). -/
def natDigitsGo : Nat → Nat → List Char → List Char
  | 0, n, acc => digitChar (n % 10) :: acc
  | fuel + 1, n, acc =>
    if n < 10 then digitChar (n % 10) :: acc
    else natDigitsGo fuel (n / 10) (digitChar (n % 10) :: acc)

/-- Decimal rendering of a `Nat` (how `JSON.stringify` prints the
non-negative integers that the temporal claims are). -/
def natToDigits (n : Nat) : List Char := natDigitsGo n n []

/-- Is the character a decimal digit. -/
def isDigitChar (c : Char) : Bool := 48 ≤ c.toNat && c.toNat ≤ 57

/-- Numeric value of a digit string. -/
def digitsToNat (cs : List Char) : Nat :=
  cs.foldl (fun a c => a * 10 + (c.toNat - 48)) 0

/-- The JWT claims recognised by the core that the specified behaviour
depends on: the registered temporal claims (seconds since epoch) and the
private `session_id` claim, each optional exactly as in the `JWTClaims`
interface of src/services/auth.ts. -/
structure JWTClaims where
  exp : Option Nat := none
  nbf : Option Nat := none
  iat : Option Nat := none
  session_id : Option Nat := none
deriving DecidableEq

/-- The member a present claims field contributes. -/
def optField (key : List Char) : Option Nat → List (List Char × Nat)
  | some v => [(key, v)]
  | none => []

/-- The present fields of a claims object, in declaration order — the
key/value pairs `JSON.stringify` would emit. -/
def fieldList (c : JWTClaims) : List (List Char × Nat) :=
  optField "exp".data c.exp ++ optField "nbf".data c.nbf ++
    optField "iat".data c.iat ++ optField "session_id".data c.session_id

/-- One `"key":value` JSON member. -/
def renderField (f : List Char × Nat) : List Char :=
  '"' :: f.1 ++ '"' :: ':' :: natToDigits f.2

/-- Comma-joined members. -/
def joinComma : List (List Char) → List Char
  | [] => []
  | [f] => f
  | f :: fs => f ++ ',' :: joinComma fs

/-- `JSON.stringify` of a claims object. -/
def stringifyClaims (c : JWTClaims) : List Char :=
  '\x7b' :: (joinComma ((fieldList c).map renderField) ++ ['\x7d'])

/-- Not the string-closing quote. -/
def notQuote (c : Char) : Bool := c != '"'

/-- Parse one `"key":value` JSON member. -/
def parseField (cs : List Char) : Option (List Char × Nat) :=
  match cs with
  | [] => none
  | q0 :: rest =>
    if q0 = '"' then
      let key := rest.takeWhile notQuote
      match rest.dropWhile notQuote with
      | q1 :: c1 :: ds =>
        if q1 = '"' ∧ c1 = ':' ∧ ds ≠ [] ∧ ds.all isDigitChar then some (key, digitsToNat ds)
        else none
      | _ => none
    else none

/-- Parse every member. -/
def parseFields : List (List Char) → Option (List (List Char × Nat))
  | [] => some []
  | f :: fs => do
    let kv ← parseField f
    let rest ← parseFields fs
    some (kv :: rest)

/-- Assign a parsed member to its claims field (later members win, as in
`JSON.parse`); unknown keys are rejected since the embedding's claims
universe is the recognised fields. -/
def setClaim (c : JWTClaims) (key : List Char) (v : Nat) : Option JWTClaims :=
  if key = "exp".data then some { c with exp := some v }
  else if key = "nbf".data then some { c with nbf := some v }
  else if key = "iat".data then some { c with iat := some v }
  else if key = "session_id".data then some { c with session_id := some v }
  else none

/-- Fold parsed members into a claims object. -/
def applyFields : JWTClaims → List (List Char × Nat) → Option JWTClaims
  | c, [] => some c
  | c, kv :: rest => do
    let c' ← setClaim c kv.1 kv.2
    applyFields c' rest

/-- `JSON.parse` of a claims object in the serialised form above. -/
def parseClaims (cs : List Char) : Option JWTClaims :=
  match cs with
  | '\x7b' :: rest =>
    match rest.getLast? with
    | some '\x7d' =>
      let inner := rest.dropLast
      if inner = [] then some {} else do
        let parsed ← parseFields (splitOnChar ',' inner)
        applyFields {} parsed
    | _ => none
  | _ => none

/-- The algorithm name of the only supported algorithm (`ALGORITHM.HS256`). -/
def hs256Name : List Char := "HS256".data

/-- `JSON.stringify` of the JOSE header `{ alg, typ: "JWT" }` built by `sign`. -/
def headerJson (alg : List Char) : List Char :=
  "\x7b\"alg\":\"".data ++ alg ++ "\",\"typ\":\"JWT\"\x7d".data

/-- Extract the `alg` member from a serialised JOSE header. -/
def parseHeaderAlg (cs : List Char) : Option (List Char) :=
  match cs with
  | '\x7b' :: '"' :: 'a' :: 'l' :: 'g' :: '"' :: ':' :: '"' :: rest =>
    let alg := rest.takeWhile notQuote
    match rest.dropWhile notQuote with
    | '"' :: tail => if tail = ",\"typ\":\"JWT\"\x7d".data then some alg else none
    | _ => none
  | _ => none

/-- The external HMAC primitive `(data, key) → Buffer`
(`crypto.createHmac("sha256", key).update(data).digest()`),
an external collaborator of the auth service. -/
abbrev HmacFn := List Char → Bytes → Bytes

/-- `ALGORITHM_FUNCTIONS[alg]`: the HS256 entry is the HMAC primitive,
every other name is unknown. -/
def algorithmFunction (hmac : HmacFn) (alg : List Char) : Option HmacFn :=
  if alg = hs256Name then some hmac else none

/-- `sign(claims, key)` of src/services/auth.ts with the default HS256
algorithm: `headerB64 "." claimsB64 "." base64(hmac(signedData, key))`
where `signedData = headerB64 "." claimsB64`. -/
def sign (hmac : HmacFn) (claims : JWTClaims) (key : Bytes) : List Char :=
  let headerB64 := base64Encode (strBytes (headerJson hs256Name))
  let claimsB64 := base64Encode (strBytes (stringifyClaims claims))
  let signedData := headerB64 ++ '.' :: claimsB64
  let signature := hmac signedData key
  signedData ++ '.' :: base64Encode signature

/-- Result of `parseJwt`. -/
structure ParsedJWT where
  alg : List Char
  claims : JWTClaims
  signature : Bytes
  signedData : List Char
deriving DecidableEq

/-- `parseJwt(token)`: split on `.` into exactly three parts, base64-decode
each, JSON-parse header and claims; any failure is an invalid format. -/
def parseJwt (token : List Char) : Option ParsedJWT :=
  match splitOnChar '.' token with
  | [headerB64, claimsB64, signatureB64] => do
    let headerBytes ← base64Decode headerB64
    let claimsBytes ← base64Decode claimsB64
    let signature ← base64Decode signatureB64
    let alg ← parseHeaderAlg (bytesStr headerBytes)
    let claims ← parseClaims (bytesStr claimsBytes)
    some ⟨alg, claims, signature, headerB64 ++ '.' :: claimsB64⟩
  | _ => none

/-- `safeEqual`: length check plus `crypto.timingSafeEqual`, i.e. byte
equality. -/
def safeEqual (a b : Bytes) : Bool := a == b

/-- `claims.exp && claims.exp < now` — JS truthiness: `0` is falsy, a
missing claim is skipped. -/
def failsExp (e : Option Nat) (now : Nat) : Bool :=
  match e with
  | none => false
  | some v => v != 0 && decide (v < now)

/-- `claims.nbf && claims.nbf > now`. -/
def failsNbf (v? : Option Nat) (now : Nat) : Bool :=
  match v? with
  | none => false
  | some v => v != 0 && decide (now < v)

/-- `claims.iat && claims.iat > now + 60`. -/
def failsIat (v? : Option Nat) (now : Nat) : Bool :=
  match v? with
  | none => false
  | some v => v != 0 && decide (now + 60 < v)

/-- The distinct causes the single `AuthenticationError` kind is raised
with in `verify`. -/
inductive AuthErrorCause
  | invalidFormat
  | unsupportedAlgorithm
  | invalidSignature
  | expired
  | notYetValid
  | issuedInFuture
deriving DecidableEq

/-- `verify(jsonWebToken, key)` of src/services/auth.ts, at verification
time `now` (seconds since epoch), with the HMAC primitive as parameter. -/
def verify (hmac : HmacFn) (token : List Char) (key : Bytes) (now : Nat) :
    Except AuthErrorCause JWTClaims :=
  match parseJwt token with
  | none => .error .invalidFormat
  | some p =>
    match algorithmFunction hmac p.alg with
    | none => .error .unsupportedAlgorithm
    | some f =>
      if ¬ safeEqual p.signature (f p.signedData key) then .error .invalidSignature
      else if failsExp p.claims.exp now then .error .expired
      else if failsNbf p.claims.nbf now then .error .notYetValid
      else if failsIat p.claims.iat now then .error .issuedInFuture
      else .ok p.claims

/-- A concrete stand-in HMAC used by the closed counterexample and witness
theorems: any deterministic byte-valued function exercises the pipeline. -/
def cHmac : HmacFn := fun _ _ => [0]

end SfuAuth

instance {ε α : Type} [DecidableEq ε] [DecidableEq α] : DecidableEq (Except ε α) :=
  fun a b =>
    match a, b with
    | .error e, .error f =>
      match decEq e f with
      | isTrue h => isTrue (congrArg Except.error h)
      | isFalse h => isFalse (fun hh => h (Except.error.inj hh))
    | .ok x, .ok y =>
      match decEq x y with
      | isTrue h => isTrue (congrArg Except.ok h)
      | isFalse h => isFalse (fun hh => h (Except.ok.inj hh))
    | .error _, .ok _ => isFalse (fun hh => Except.noConfusion hh)
    | .ok _, .error _ => isFalse (fun hh => Except.noConfusion hh)

namespace SfuChannel

/-- `config.CHANNEL_SIZE` (src/config: default 100). -/
def CHANNEL_SIZE : Nat := 100

/-- `config.timeouts.channel` in milliseconds (one hour). -/
def timeoutsChannel : Nat := 60 * 60000

/-- `SESSION_CLOSE_CODE` of src/models/session.ts. -/
inductive SessionCloseCode
  | clean
  | replaced
  | wsError
  | wsClosed
  | channelClosed
  | cTimeout
  | pTimeout
  | kicked
  | error
deriving DecidableEq

/-- `SESSION_STATE` of src/models/session.ts. -/
inductive SessionState
  | new
  | connecting
  | connected
  | closed
deriving DecidableEq

/-- The slice of a `Session` the channel-level claims depend on: its id, a
creation stamp distinguishing instances with the same id, its state, the
code of its first close, and whether the channel's `_onSessionClose`
listener is currently attached to it. -/
structure MSession where
  sid : Nat
  gen : Nat
  state : SessionState := .new
  closeCode : Option SessionCloseCode := none
  hasCloseListener : Bool := true
deriving DecidableEq

/-- `session.close({ code })`: a no-op on an already-CLOSED session
(idempotent), otherwise the state becomes CLOSED with that code. -/
def closeSession (s : MSession) (code : SessionCloseCode) : MSession :=
  if s.state = .closed then s
  else { s with state := .closed, closeCode := some code }

/-- The channel state the claims depend on: the session map (association
list with unique keys), the idle-close deadline when the `_closeTimeout`
timer is armed (absolute ms), and the stamp for the next session. -/
structure ChannelState where
  sessions : List (Nat × MSession) := []
  closeDeadline : Option Nat := none
  nextGen : Nat := 0
deriving DecidableEq

/-- `Map.prototype.get`. -/
def lookupSession : List (Nat × MSession) → Nat → Option MSession
  | [], _ => none
  | (k, v) :: rest, sid => if k = sid then some v else lookupSession rest sid

/-- `Map.prototype.set`: replace in place, or append when absent. -/
def setSession : List (Nat × MSession) → Nat → MSession → List (Nat × MSession)
  | [], sid, s => [(sid, s)]
  | (k, v) :: rest, sid, s =>
    if k = sid then (sid, s) :: rest else (k, v) :: setSession rest sid s

/-- `Map.prototype.delete`. -/
def eraseSession : List (Nat × MSession) → Nat → List (Nat × MSession)
  | [], _ => []
  | (k, v) :: rest, sid => if k = sid then rest else (k, v) :: eraseSession rest sid

/-- `setCloseTimeout(active)`: arming is a no-op while a timer is pending,
otherwise schedules the close `timeouts.channel` from now; disarming clears
the timer. -/
def setCloseTimeout (st : ChannelState) (active : Bool) (now : Nat) : ChannelState :=
  if active then
    match st.closeDeadline with
    | some _ => st
    | none => { st with closeDeadline := some (now + timeoutsChannel) }
  else { st with closeDeadline := none }

/-- What `channel.join(sessionId)` produces: the next channel state, the
installed session, and — when the id was already in use — the prior session
as `join` leaves it (listener detached, then closed with `REPLACED`). -/
structure JoinOutcome where
  state : ChannelState
  newSession : MSession
  replaced : Option MSession
deriving DecidableEq

/-- `channel.join(sessionId)` (instance method): detach the close listener
from any session already registered under the id and close it with
`REPLACED` (the detach means `_onSessionClose` does not run for it), build
a fresh session, install it, and disarm the idle timer when the map now
holds more than one session. -/
def channelJoin (st : ChannelState) (sid : Nat) (now : Nat) : JoinOutcome :=
  let old := lookupSession st.sessions sid
  let replaced := old.map (fun s => closeSession { s with hasCloseListener := false } .replaced)
  let newSession : MSession := { sid := sid, gen := st.nextGen }
  let sessions := setSession st.sessions sid newSession
  let st1 : ChannelState := { st with sessions := sessions, nextGen := st.nextGen + 1 }
  let st2 := if sessions.length > 1 then setCloseTimeout st1 false now else st1
  ⟨st2, newSession, replaced⟩

/-- The two error kinds the static `Channel.join` can throw. -/
inductive JoinError
  | authentication
  | overcrowded
deriving DecidableEq

/-- Static `Channel.join(uuid, sessionId)` on a registered channel: throw
`OvercrowdedError` when the session count has reached `CHANNEL_SIZE`,
otherwise delegate to the instance `join`. (The unknown-uuid
`AuthenticationError` branch is the registry lookup, outside this
per-channel state.) -/
def staticJoin (st : ChannelState) (sid : Nat) (now : Nat) : Except JoinError JoinOutcome :=
  if st.sessions.length ≥ CHANNEL_SIZE then .error .overcrowded
  else .ok (channelJoin st sid now)

/-- `_onSessionClose({ id })`: remove the session and arm the idle timer
when at most one session remains. -/
def onSessionClose (st : ChannelState) (sid : Nat) (now : Nat) : ChannelState :=
  let st1 : ChannelState := { st with sessions := eraseSession st.sessions sid }
  if st1.sessions.length ≤ 1 then setCloseTimeout st1 true now else st1

/-- A registered session closing on its own (its attached listener fires
`_onSessionClose`); closing an id that is not registered does nothing. -/
def sessionCloseEvent (st : ChannelState) (sid : Nat) (now : Nat) : ChannelState :=
  match lookupSession st.sessions sid with
  | none => st
  | some _ => onSessionClose st sid now

/-- `channel.close()`: every session is closed with `CHANNEL_CLOSED`
(listeners detached first), the map is cleared and the idle timer
cancelled. -/
def channelClose (st : ChannelState) : ChannelState :=
  { st with sessions := [], closeDeadline := none }

/-- The state of a channel right after `Channel.create` registered it at
time `t0`: empty map, idle timer armed. -/
def createChannel (t0 : Nat) : ChannelState :=
  setCloseTimeout {} true t0

/-- The operations that can touch a registered channel's session map. -/
inductive ChannelEvent
  | join (sid : Nat) (now : Nat)
  | sessionClose (sid : Nat) (now : Nat)
  | close
deriving DecidableEq

/-- One operation; a `join` that throws leaves the channel unchanged. -/
def step (st : ChannelState) : ChannelEvent → ChannelState
  | .join sid now =>
    match staticJoin st sid now with
    | .ok o => o.state
    | .error _ => st
  | .sessionClose sid now => sessionCloseEvent st sid now
  | .close => channelClose st

/-- A sequence of operations from a given state. -/
def runEvents (st : ChannelState) (evs : List ChannelEvent) : ChannelState :=
  evs.foldl step st

/-- Number of entries of the session map registered under an id. -/
def countKey (m : List (Nat × MSession)) (sid : Nat) : Nat :=
  (m.filter (fun p => p.1 = sid)).length

/-- The states a channel created at `t0` can reach through joins and
session closes while never holding two simultaneous sessions. -/
inductive SmallReach (t0 : Nat) : ChannelState → Prop
  | init : SmallReach t0 (createChannel t0)
  | joinStep (st : ChannelState) (sid now : Nat) : SmallReach t0 st →
      (step st (.join sid now)).sessions.length ≤ 1 →
      SmallReach t0 (step st (.join sid now))
  | closeStep (st : ChannelState) (sid now : Nat) : SmallReach t0 st →
      SmallReach t0 (step st (.sessionClose sid now))

end SfuChannel

namespace SfuBusBatch

/-- `config.timeouts.busBatch` on the server (non-test value). -/
def busBatch : Nat := 300

/-- A scheduled `setTimeout` handle of the batching machinery. -/
structure Timer where
  tid : Nat
  deadline : Nat
deriving DecidableEq

/-- The batching slice of a `Bus` (src/shared/bus.js): the gathering queue,
the `_batchTimeout` field, the set of scheduled-but-unfired timeouts, the
frames written to the socket so far (each one network frame carrying a
whole array of payloads), and a fresh-timer counter. Payloads are abstract
(`Nat`). -/
structure BatchState where
  queue : List Nat := []
  handle : Option Nat := none
  timers : List Timer := []
  frames : List (List Nat) := []
  nextTid : Nat := 0
deriving DecidableEq

/-- `_flush()`: when the queue is non-empty, send it as one frame, clear
it, and `_startGathering()` — schedule a fresh timeout `delay` from now and
store its handle in `_batchTimeout`. -/
def flush (delay now : Nat) (st : BatchState) : BatchState :=
  if st.queue = [] then st
  else
    { st with
      frames := st.frames ++ [st.queue]
      queue := []
      handle := some st.nextTid
      timers := st.timers ++ [⟨st.nextTid, now + delay⟩]
      nextTid := st.nextTid + 1 }

/-- `_batch(payload)`: enqueue; if `_batchTimeout` is set the payload waits
for the gathering batch, otherwise `_flush()` immediately. -/
def batchMessage (delay now : Nat) (st : BatchState) (m : Nat) : BatchState :=
  let st1 : BatchState := { st with queue := st.queue ++ [m] }
  match st1.handle with
  | some _ => st1
  | none => flush delay now st1

/-- A scheduled timeout firing: its callback runs `_flush()` and then
unconditionally sets `_batchTimeout = undefined`. Only a timer that is
still scheduled can fire. -/
def fireTimer (delay now : Nat) (st : BatchState) (t : Timer) : BatchState :=
  if t ∈ st.timers then
    let st1 : BatchState := { st with timers := st.timers.erase t }
    let st2 := flush delay now st1
    { st2 with handle := none }
  else st

end SfuBusBatch

namespace SfuBusReq

/-- How a `request` future settles. -/
inductive Completion
  | resolved (msg : Nat)
  | rejectedTimeout
  | rejectedClosed
deriving DecidableEq

/-- The pending-request slice of a `Bus`: correlation ids whose entry is in
`_pendingRequests` (equivalently, whose deadline timer is armed — the
source always clears the timer exactly when it deletes the entry), the
promise settlements so far in order, and whether the bus was closed. -/
structure ReqState where
  pending : List Nat := []
  completions : List (Nat × Completion) := []
  closed : Bool := false
deriving DecidableEq

/-- Correlation ids that already settled. -/
def keysOf (l : List (Nat × Completion)) : List Nat := l.map (fun p => p.1)

/-- The events that drive the pending-request machinery. -/
inductive BusEvent
  | request (rid : Nat)
  | response (rid : Nat) (msg : Nat)
  | deadline (rid : Nat)
  | close
deriving DecidableEq

/-- One event:
`request` stores a pending entry (correlation ids come from a strictly
increasing counter, modelled as the freshness guard);
`response` — `_handlePayload` with `responseTo` set — resolves and deletes
the matching pending entry, and ignores the payload when there is none;
`deadline` — the request's `setTimeout` firing — rejects and deletes;
`close` rejects every pending request with `BusClosed` and clears the map. -/
def stepEvent (st : ReqState) : BusEvent → ReqState
  | .request rid =>
    if rid ∈ st.pending ∨ rid ∈ keysOf st.completions then st
    else { st with pending := st.pending ++ [rid] }
  | .response rid msg =>
    if rid ∈ st.pending then
      { st with
        pending := st.pending.erase rid
        completions := st.completions ++ [(rid, .resolved msg)] }
    else st
  | .deadline rid =>
    if rid ∈ st.pending then
      { st with
        pending := st.pending.erase rid
        completions := st.completions ++ [(rid, .rejectedTimeout)] }
    else st
  | .close =>
    { st with
      pending := []
      completions := st.completions ++ st.pending.map (fun r => (r, .rejectedClosed))
      closed := true }

/-- A sequence of events. -/
def runBus (st : ReqState) (evs : List BusEvent) : ReqState :=
  evs.foldl stepEvent st

/-- Does the event settle the future of correlation id `rid`? -/
def completes (rid : Nat) : BusEvent → Bool
  | .response r _ => r == rid
  | .deadline r => r == rid
  | .close => true
  | .request _ => false

/-- The first event of the trace that settles `rid`. -/
def firstCompleting (rid : Nat) (evs : List BusEvent) : Option BusEvent :=
  evs.find? (completes rid)

/-- The settlements of `rid`, in order. -/
def completionsFor (rid : Nat) (st : ReqState) : List Completion :=
  (st.completions.filter (fun p => p.1 == rid)).map (fun p => p.2)

end SfuBusReq

namespace SfuSession

/-- `STREAM_TYPE` of the shared enums. -/
inductive StreamType
  | audio
  | camera
  | screen
deriving DecidableEq

/-- The info fields `PRODUCTION_CHANGE` touches; `none` is the JS
`undefined` they are sealed with. -/
structure ProdInfo where
  isCameraOn : Option Bool := none
  isScreenSharingOn : Option Bool := none
deriving DecidableEq

/-- The slice of a `Session` the `PRODUCTION_CHANGE` handler reads and
writes: the info record and the three producer slots, each `none` or the
producer's `paused` flag. -/
structure ProdSession where
  info : ProdInfo := {}
  audioProducer : Option Bool := none
  cameraProducer : Option Bool := none
  screenProducer : Option Bool := none
deriving DecidableEq

/-- `this.producers[type]`. -/
def producerOf (s : ProdSession) : StreamType → Option Bool
  | .audio => s.audioProducer
  | .camera => s.cameraProducer
  | .screen => s.screenProducer

/-- Store a producer slot. -/
def setProducer (s : ProdSession) (t : StreamType) (p : Option Bool) : ProdSession :=
  match t with
  | .audio => { s with audioProducer := p }
  | .camera => { s with cameraProducer := p }
  | .screen => { s with screenProducer := p }

/-- What one `PRODUCTION_CHANGE` dispatch did: the updated session, whether
the producer was resumed or paused, whether `_updateRemoteConsumers()` ran
(scheduling `consume` on every session of the channel) and whether
`_broadcastInfo()` ran (batched info message to every peer). -/
structure ProductionChangeResult where
  session : ProdSession
  producerResumed : Bool := false
  producerPaused : Bool := false
  remoteConsumersUpdated : Bool := false
  infoBroadcast : Bool := false
deriving DecidableEq

/-- The `CLIENT_MESSAGE.PRODUCTION_CHANGE` case of `_handleMessage`
(src/models/session.ts): update the info flag for camera/screen, then — only
if a producer of that type exists — resume or pause it, update remote
consumers and broadcast the info; with no producer the handler returns
right after the info update. -/
def handleProductionChange (s : ProdSession) (ty : StreamType) (active : Bool) :
    ProductionChangeResult :=
  let s1 :=
    match ty with
    | .screen => { s with info := { s.info with isScreenSharingOn := some active } }
    | .camera => { s with info := { s.info with isCameraOn := some active } }
    | .audio => s
  match producerOf s1 ty with
  | none => { session := s1 }
  | some _ =>
    let s2 := setProducer s1 ty (some (!active))
    { session := s2
      producerResumed := active
      producerPaused := !active
      remoteConsumersUpdated := true
      infoBroadcast := true }

end SfuSession

namespace SfuWs

/-- `WS_CLOSE_CODE` of the shared enums. -/
def wsClean : Nat := 1000
def wsError : Nat := 1011
def wsAuthenticationFailed : Nat := 4106
def wsTimeout : Nat := 4107
def wsKicked : Nat := 4108
def wsChannelFull : Nat := 4109

/-- The gateway registries of src/services/ws.ts: the
unauthenticated-pending map (pending id → socket), the authenticated set,
the sockets carrying the per-socket `close` handler installed by `connect`
(the handler that removes the socket from the authenticated set), and the
close codes issued so far. Sockets are abstract ids. -/
structure GatewayState where
  unauthenticated : List (Nat × Nat) := []
  authenticated : List Nat := []
  closeHandlers : List Nat := []
  closedSockets : List (Nat × Nat) := []
deriving DecidableEq

/-- How the body of the one-shot first-message handler ends: `connect`
returned a session, or it threw one of the three distinguished ways. -/
inductive AuthOutcome
  | success
  | authenticationFailed
  | overcrowded
  | otherError
deriving DecidableEq

/-- Lookup in the pending map. -/
def lookupPending : List (Nat × Nat) → Nat → Option Nat
  | [], _ => none
  | (k, v) :: rest, pid => if k = pid then some v else lookupPending rest pid

/-- `Map.prototype.delete` on the pending map (keys are unique, so
removing every entry under the key is the same operation). -/
def erasePending (m : List (Nat × Nat)) (pid : Nat) : List (Nat × Nat) :=
  m.filter (fun p => p.1 ≠ pid)

/-- The `webSocket.once("message", ...)` handler of `start`: run `connect`
inside try/catch — success installs the per-socket close handler, each
failure closes the socket with its code — and then, on every path, delete
the pending entry, add the socket to the authenticated set and cancel the
authentication timeout. -/
def handleFirstMessage (st : GatewayState) (pid sock : Nat) (outcome : AuthOutcome) :
    GatewayState :=
  let st1 :=
    match outcome with
    | .success => { st with closeHandlers := sock :: st.closeHandlers }
    | .authenticationFailed =>
      { st with closedSockets := (sock, wsAuthenticationFailed) :: st.closedSockets }
    | .overcrowded => { st with closedSockets := (sock, wsChannelFull) :: st.closedSockets }
    | .otherError => { st with closedSockets := (sock, wsError) :: st.closedSockets }
  { st1 with
    unauthenticated := erasePending st1.unauthenticated pid
    authenticated := sock :: st1.authenticated }

end SfuWs

/-! ### Helper lemmas: base64 -/

namespace SfuAuth

theorem encodeSextet_lt : ∀ n, n < 64 →
    decodeSextet (encodeSextet n) = some n ∧ encodeSextet n ≠ '=' ∧ encodeSextet n ≠ '.' := by
  decide

theorem encodeSextet_ne (n : Nat) : encodeSextet n ≠ '=' ∧ encodeSextet n ≠ '.' := by
  rcases Nat.lt_or_ge n 64 with h | h
  · exact (encodeSextet_lt n h).2
  · have hd : encodeSextet n = 'A' := by
      have hlen : base64Alphabet.length ≤ n := by
        have h64 : base64Alphabet.length = 64 := rfl
        omega
      exact List.getD_eq_default _ _ hlen
    rw [hd]
    exact ⟨by decide, by decide⟩

theorem base64Encode_eq_nil_iff (bs : Bytes) : base64Encode bs = [] ↔ bs = [] := by
  match bs with
  | [] => simp [base64Encode]
  | [b1] => simp [base64Encode]
  | [b1, b2] => simp [base64Encode]
  | b1 :: b2 :: b3 :: rest => simp [base64Encode]

theorem dot_not_mem_base64Encode (bs : Bytes) : '.' ∉ base64Encode bs := by
  intro hc
  induction bs using base64Encode.induct with
  | case1 => simp [base64Encode] at hc
  | case2 b1 =>
    simp [base64Encode] at hc
    rcases hc with h | h
    · exact (encodeSextet_ne _).2 h.symm
    · exact (encodeSextet_ne _).2 h.symm
  | case3 b1 b2 =>
    simp [base64Encode] at hc
    rcases hc with h | h | h
    · exact (encodeSextet_ne _).2 h.symm
    · exact (encodeSextet_ne _).2 h.symm
    · exact (encodeSextet_ne _).2 h.symm
  | case4 b1 b2 b3 rest ih =>
    simp [base64Encode] at hc
    rcases hc with h | h | h | h | h
    · exact (encodeSextet_ne _).2 h.symm
    · exact (encodeSextet_ne _).2 h.symm
    · exact (encodeSextet_ne _).2 h.symm
    · exact (encodeSextet_ne _).2 h.symm
    · exact ih h

theorem base64Decode_encode (bs : Bytes) (h : ∀ b ∈ bs, b < 256) :
    base64Decode (base64Encode bs) = some bs := by
  induction bs using base64Encode.induct with
  | case1 => rfl
  | case2 b1 =>
    have hb : b1 < 256 := h b1 (by simp)
    have h1 : b1 * 65536 / 262144 < 64 := by omega
    have h2 : b1 * 65536 / 4096 % 64 < 64 := by omega
    simp [base64Encode, base64Decode, (encodeSextet_lt _ h1).1, (encodeSextet_lt _ h2).1]
    omega
  | case3 b1 b2 =>
    have hb1 : b1 < 256 := h b1 (by simp)
    have hb2 : b2 < 256 := h b2 (by simp)
    have h1 : (b1 * 65536 + b2 * 256) / 262144 < 64 := by omega
    have h2 : (b1 * 65536 + b2 * 256) / 4096 % 64 < 64 := by omega
    have h3 : (b1 * 65536 + b2 * 256) / 64 % 64 < 64 := by omega
    simp [base64Encode, base64Decode, (encodeSextet_lt _ h1).1, (encodeSextet_lt _ h2).1,
      (encodeSextet_lt _ h3).1, (encodeSextet_ne ((b1 * 65536 + b2 * 256) / 64 % 64)).1]
    omega
  | case4 b1 b2 b3 rest ih =>
    have hb1 : b1 < 256 := h b1 (by simp)
    have hb2 : b2 < 256 := h b2 (by simp)
    have hb3 : b3 < 256 := h b3 (by simp)
    have hrest : ∀ b ∈ rest, b < 256 := fun b hb => h b (by simp [hb])
    have h1 : (b1 * 65536 + b2 * 256 + b3) / 262144 < 64 := by omega
    have h2 : (b1 * 65536 + b2 * 256 + b3) / 4096 % 64 < 64 := by omega
    have h3 : (b1 * 65536 + b2 * 256 + b3) / 64 % 64 < 64 := by omega
    have h4 : (b1 * 65536 + b2 * 256 + b3) % 64 < 64 := by omega
    rcases Decidable.em (rest = []) with hre | hre
    · subst hre
      simp [base64Encode, base64Decode, (encodeSextet_lt _ h1).1, (encodeSextet_lt _ h2).1,
        (encodeSextet_lt _ h3).1, (encodeSextet_lt _ h4).1,
        (encodeSextet_ne ((b1 * 65536 + b2 * 256 + b3) / 64 % 64)).1,
        (encodeSextet_ne ((b1 * 65536 + b2 * 256 + b3) % 64)).1]
      omega
    · have henc : base64Encode rest ≠ [] := by
        intro hh
        exact hre ((base64Encode_eq_nil_iff rest).mp hh)
      simp [base64Encode, base64Decode, (encodeSextet_lt _ h1).1, (encodeSextet_lt _ h2).1,
        (encodeSextet_lt _ h3).1, (encodeSextet_lt _ h4).1, henc, ih hrest]
      omega

end SfuAuth

/-! ### Helper lemmas: splitting, digits, field parsing -/

namespace SfuAuth

theorem splitOnChar_ne_nil (sep : Char) (l : List Char) : splitOnChar sep l ≠ [] := by
  match l with
  | [] => simp [splitOnChar]
  | c :: cs =>
    simp only [splitOnChar]
    match hs : splitOnChar sep cs with
    | [] => simp
    | g :: gs =>
      by_cases hc : c = sep <;> simp [hc]

theorem splitOnChar_no_sep (sep : Char) (l : List Char) (h : sep ∉ l) :
    splitOnChar sep l = [l] := by
  induction l with
  | nil => rfl
  | cons c cs ih =>
    have hcs : sep ∉ cs := fun hm => h (List.mem_cons_of_mem _ hm)
    have hc : c ≠ sep := fun he => h (he ▸ List.mem_cons_self _ _)
    simp only [splitOnChar, ih hcs]
    simp [hc]

theorem splitOnChar_append (sep : Char) (a rest : List Char) (ha : sep ∉ a) :
    splitOnChar sep (a ++ sep :: rest) = a :: splitOnChar sep rest := by
  induction a with
  | nil =>
    simp only [List.nil_append, splitOnChar]
    match hs : splitOnChar sep rest with
    | [] => exact absurd hs (splitOnChar_ne_nil sep rest)
    | g :: gs => simp
  | cons c cs ih =>
    have hcs : sep ∉ cs := fun hm => ha (List.mem_cons_of_mem _ hm)
    have hc : c ≠ sep := fun he => ha (he ▸ List.mem_cons_self _ _)
    simp only [List.cons_append, splitOnChar, List.append_eq]
    rw [ih hcs]
    simp [hc]

theorem digitChar_toNat : ∀ m, m < 10 → (digitChar m).toNat = 48 + m := by decide

theorem isDigitChar_digitChar : ∀ m, m < 10 → isDigitChar (digitChar m) = true := by decide

theorem natDigitsGo_shift (fuel : Nat) : ∀ (n : Nat) (acc : List Char),
    natDigitsGo fuel n acc = natDigitsGo fuel n [] ++ acc := by
  induction fuel with
  | zero => intro n acc; rfl
  | succ fuel ih =>
    intro n acc
    by_cases h : n < 10
    · simp [natDigitsGo, h]
    · simp only [natDigitsGo, h, if_false]
      rw [ih (n / 10) (digitChar (n % 10) :: acc), ih (n / 10) [digitChar (n % 10)]]
      simp

theorem natDigitsGo_all_digits (fuel : Nat) : ∀ (n : Nat),
    ∀ c ∈ natDigitsGo fuel n [], isDigitChar c = true := by
  induction fuel with
  | zero =>
    intro n c hc
    simp [natDigitsGo] at hc
    rw [hc]
    exact isDigitChar_digitChar _ (Nat.mod_lt _ (by omega))
  | succ fuel ih =>
    intro n c hc
    by_cases h : n < 10
    · simp [natDigitsGo, h] at hc
      rw [hc]
      exact isDigitChar_digitChar _ (Nat.mod_lt _ (by omega))
    · simp only [natDigitsGo, h, if_false] at hc
      rw [natDigitsGo_shift] at hc
      rcases List.mem_append.mp hc with hca | hcb
      · exact ih _ c hca
      · simp at hcb
        rw [hcb]
        exact isDigitChar_digitChar _ (Nat.mod_lt _ (by omega))

theorem natToDigits_all_digits (n : Nat) : ∀ c ∈ natToDigits n, isDigitChar c = true :=
  natDigitsGo_all_digits n n

theorem natToDigits_ne_nil (n : Nat) : natToDigits n ≠ [] := by
  rw [natToDigits]
  cases n with
  | zero => simp [natDigitsGo]
  | succ m =>
    by_cases h : m + 1 < 10
    · simp [natDigitsGo, h]
    · simp only [natDigitsGo, h, if_false]
      rw [natDigitsGo_shift]
      simp

theorem natDigitsGo_value (fuel : Nat) : ∀ (n : Nat), n ≤ fuel →
    digitsToNat (natDigitsGo fuel n []) = n := by
  induction fuel with
  | zero =>
    intro n hn
    have hn0 : n = 0 := by omega
    subst hn0
    decide
  | succ fuel ih =>
    intro n hn
    by_cases h : n < 10
    · have hd := digitChar_toNat (n % 10) (Nat.mod_lt _ (by omega))
      simp [natDigitsGo, h, digitsToNat, hd]
    · simp only [natDigitsGo, h, if_false]
      rw [natDigitsGo_shift]
      have hd := digitChar_toNat (n % 10) (Nat.mod_lt _ (by omega))
      have hstep : digitsToNat (natDigitsGo fuel (n / 10) [] ++ [digitChar (n % 10)]) =
          digitsToNat (natDigitsGo fuel (n / 10) []) * 10 + ((digitChar (n % 10)).toNat - 48) := by
        simp [digitsToNat, List.foldl_append]
      rw [hstep, ih (n / 10) (by omega), hd]
      omega

theorem digitsToNat_natToDigits (n : Nat) : digitsToNat (natToDigits n) = n :=
  natDigitsGo_value n n (Nat.le_refl n)

theorem takeWhile_append_stop (p : Char → Bool) (k : List Char) (x : Char) (xs : List Char)
    (hk : ∀ c ∈ k, p c = true) (hx : p x = false) :
    (k ++ x :: xs).takeWhile p = k := by
  induction k with
  | nil => simp [List.takeWhile, hx]
  | cons c cs ih =>
    have hc : p c = true := hk c (List.mem_cons_self _ _)
    have hcs : ∀ d ∈ cs, p d = true := fun d hd => hk d (List.mem_cons_of_mem _ hd)
    simp [List.takeWhile, hc, ih hcs]

theorem dropWhile_append_stop (p : Char → Bool) (k : List Char) (x : Char) (xs : List Char)
    (hk : ∀ c ∈ k, p c = true) (hx : p x = false) :
    (k ++ x :: xs).dropWhile p = x :: xs := by
  induction k with
  | nil => simp [List.dropWhile, hx]
  | cons c cs ih =>
    have hc : p c = true := hk c (List.mem_cons_self _ _)
    have hcs : ∀ d ∈ cs, p d = true := fun d hd => hk d (List.mem_cons_of_mem _ hd)
    simp [List.dropWhile, hc, ih hcs]

end SfuAuth

/-! ### Helper lemmas: claims serialisation round trip -/

namespace SfuAuth

theorem parseField_renderField (k : List Char) (v : Nat) (hk : '"' ∉ k) :
    parseField (renderField (k, v)) = some (k, v) := by
  have hkq : ∀ c ∈ k, notQuote c = true := by
    intro c hc
    simp only [notQuote, bne_iff_ne, ne_eq]
    intro he
    exact hk (he ▸ hc)
  have hq : notQuote '"' = false := by decide
  show parseField ('"' :: (k ++ '"' :: ':' :: natToDigits v)) = some (k, v)
  rw [show parseField ('"' :: (k ++ '"' :: ':' :: natToDigits v)) =
      (match (k ++ '"' :: ':' :: natToDigits v).dropWhile notQuote with
       | q1 :: c1 :: ds =>
         if q1 = '"' ∧ c1 = ':' ∧ ds ≠ [] ∧ ds.all isDigitChar then
           some ((k ++ '"' :: ':' :: natToDigits v).takeWhile notQuote, digitsToNat ds)
         else none
       | _ => none) from rfl]
  rw [takeWhile_append_stop notQuote k '"' (':' :: natToDigits v) hkq hq,
    dropWhile_append_stop notQuote k '"' (':' :: natToDigits v) hkq hq]
  simp [natToDigits_ne_nil v, List.all_eq_true.mpr (natToDigits_all_digits v),
    digitsToNat_natToDigits]

theorem comma_not_mem_renderField (k : List Char) (v : Nat) (hk : ',' ∉ k) :
    ',' ∉ renderField (k, v) := by
  intro hc
  simp only [renderField] at hc
  rcases List.mem_cons.mp hc with h | h
  · exact absurd h (by decide)
  · rcases List.mem_append.mp h with h2 | h2
    · exact hk h2
    · rcases List.mem_cons.mp h2 with h3 | h3
      · exact absurd h3 (by decide)
      · rcases List.mem_cons.mp h3 with h4 | h4
        · exact absurd h4 (by decide)
        · exact absurd (natToDigits_all_digits v ',' h4) (by decide)

theorem joinComma_cons_ne_nil (f : List Char) (fs : List (List Char)) (hf : f ≠ []) :
    joinComma (f :: fs) ≠ [] := by
  cases fs with
  | nil => simpa [joinComma] using hf
  | cons g gs => simp [joinComma]

theorem splitOnChar_joinComma : ∀ fs : List (List Char), fs ≠ [] →
    (∀ f ∈ fs, ',' ∉ f) → splitOnChar ',' (joinComma fs) = fs
  | [], hne, _ => absurd rfl hne
  | [f], _, h => by
    rw [show joinComma [f] = f from rfl]
    rw [splitOnChar_no_sep ',' f (h f (by simp))]
  | f :: g :: gs, _, h => by
    rw [show joinComma (f :: g :: gs) = f ++ ',' :: joinComma (g :: gs) from rfl]
    rw [splitOnChar_append ',' f _ (h f (by simp))]
    rw [splitOnChar_joinComma (g :: gs) (by simp) (fun x hx => h x (by simp [hx]))]

theorem parseFields_map_renderField (fs : List (List Char × Nat))
    (h : ∀ kv ∈ fs, '"' ∉ kv.1) :
    parseFields (fs.map renderField) = some fs := by
  induction fs with
  | nil => rfl
  | cons kv rest ih =>
    simp only [List.map_cons, parseFields]
    rw [show renderField kv = renderField (kv.1, kv.2) from rfl]
    rw [parseField_renderField kv.1 kv.2 (h kv (by simp))]
    rw [ih (fun x hx => h x (by simp [hx]))]
    rfl

theorem parseClaims_fields (fs : List (List Char × Nat))
    (hq : ∀ kv ∈ fs, '"' ∉ kv.1) (hcm : ∀ kv ∈ fs, ',' ∉ kv.1) :
    parseClaims ('\x7b' :: (joinComma (fs.map renderField) ++ ['\x7d'])) =
      applyFields {} fs := by
  cases fs with
  | nil => rfl
  | cons kv rest =>
    have hcomma : ∀ f ∈ (kv :: rest).map renderField, ',' ∉ f := by
      intro f hf
      rcases List.mem_map.mp hf with ⟨p, hp, hfp⟩
      rw [← hfp, show renderField p = renderField (p.1, p.2) from rfl]
      exact comma_not_mem_renderField p.1 p.2 (hcm p hp)
    have hne : joinComma ((kv :: rest).map renderField) ≠ [] := by
      rw [List.map_cons]
      exact joinComma_cons_ne_nil _ _ (by simp [renderField])
    simp only [parseClaims]
    rw [List.getLast?_concat, List.dropLast_concat]
    rw [if_neg hne]
    rw [splitOnChar_joinComma _ (by simp) hcomma]
    rw [parseFields_map_renderField _ hq]
    rfl

theorem optField_key (key : List Char) (e : Option Nat) (kv : List Char × Nat)
    (h : kv ∈ optField key e) : kv.1 = key := by
  cases e with
  | none => simp [optField] at h
  | some v =>
    simp [optField] at h
    rw [h]

theorem fieldList_keys (c : JWTClaims) (kv : List Char × Nat) (hkv : kv ∈ fieldList c) :
    kv.1 = "exp".data ∨ kv.1 = "nbf".data ∨ kv.1 = "iat".data ∨ kv.1 = "session_id".data := by
  simp only [fieldList, List.mem_append] at hkv
  rcases hkv with ((h | h) | h) | h
  · exact .inl (optField_key _ _ _ h)
  · exact .inr (.inl (optField_key _ _ _ h))
  · exact .inr (.inr (.inl (optField_key _ _ _ h)))
  · exact .inr (.inr (.inr (optField_key _ _ _ h)))

theorem applyFields_fieldList (c : JWTClaims) : applyFields {} (fieldList c) = some c := by
  obtain ⟨e, n, i, s⟩ := c
  cases e <;> cases n <;> cases i <;> cases s <;> rfl

theorem parseClaims_stringifyClaims (c : JWTClaims) :
    parseClaims (stringifyClaims c) = some c := by
  have hq : ∀ kv ∈ fieldList c, '"' ∉ kv.1 := by
    intro kv hkv
    rcases fieldList_keys c kv hkv with h | h | h | h <;> rw [h] <;> decide
  have hcm : ∀ kv ∈ fieldList c, ',' ∉ kv.1 := by
    intro kv hkv
    rcases fieldList_keys c kv hkv with h | h | h | h <;> rw [h] <;> decide
  rw [stringifyClaims, parseClaims_fields (fieldList c) hq hcm, applyFields_fieldList]

end SfuAuth

/-! ### Helper lemmas: token round trip -/

namespace SfuAuth

theorem bytesStr_strBytes (s : List Char) : bytesStr (strBytes s) = s := by
  simp only [bytesStr, strBytes, List.map_map]
  rw [show (Char.ofNat ∘ Char.toNat) = id from funext (fun c => Char.ofNat_toNat c), List.map_id]

theorem strBytes_lt (s : List Char) (h : ∀ c ∈ s, c.toNat < 256) :
    ∀ b ∈ strBytes s, b < 256 := by
  intro b hb
  rcases List.mem_map.mp hb with ⟨c, hc, hbc⟩
  exact hbc ▸ h c hc

theorem isDigitChar_lt (c : Char) (h : isDigitChar c = true) : c.toNat < 256 := by
  simp only [isDigitChar, Bool.and_eq_true, decide_eq_true_eq] at h
  omega

theorem mem_joinComma (fs : List (List Char)) (c : Char) (hc : c ∈ joinComma fs) :
    c = ',' ∨ ∃ f ∈ fs, c ∈ f := by
  induction fs using joinComma.induct with
  | case1 => simp [joinComma] at hc
  | case2 f => exact .inr ⟨f, by simp, hc⟩
  | case3 f fs hne ih =>
    match fs, hne with
    | g :: gs, _ =>
      rw [show joinComma (f :: g :: gs) = f ++ ',' :: joinComma (g :: gs) from rfl] at hc
      rcases List.mem_append.mp hc with h | h
      · exact .inr ⟨f, by simp, h⟩
      · rcases List.mem_cons.mp h with h1 | h1
        · exact .inl h1
        · rcases ih h1 with h2 | ⟨f2, hf2, hcf2⟩
          · exact .inl h2
          · exact .inr ⟨f2, List.mem_cons_of_mem _ hf2, hcf2⟩

theorem claimKeys_lt :
    (∀ c ∈ "exp".data, c.toNat < 256) ∧ (∀ c ∈ "nbf".data, c.toNat < 256) ∧
    (∀ c ∈ "iat".data, c.toNat < 256) ∧ (∀ c ∈ "session_id".data, c.toNat < 256) := by
  decide

theorem stringifyClaims_lt (cl : JWTClaims) :
    ∀ c ∈ stringifyClaims cl, c.toNat < 256 := by
  intro c hc
  simp only [stringifyClaims] at hc
  rcases List.mem_cons.mp hc with h | h
  · rw [h]; decide
  · rcases List.mem_append.mp h with h1 | h1
    · rcases mem_joinComma _ _ h1 with h2 | ⟨f, hf, hcf⟩
      · rw [h2]; decide
      · rcases List.mem_map.mp hf with ⟨kv, hkv, hfkv⟩
        rw [← hfkv, show renderField kv = renderField (kv.1, kv.2) from rfl] at hcf
        simp only [renderField] at hcf
        rcases List.mem_cons.mp hcf with h3 | h3
        · rw [h3]; decide
        · rcases List.mem_append.mp h3 with h4 | h4
          · rcases fieldList_keys cl kv hkv with hk | hk | hk | hk <;> rw [hk] at h4
            · exact claimKeys_lt.1 c h4
            · exact claimKeys_lt.2.1 c h4
            · exact claimKeys_lt.2.2.1 c h4
            · exact claimKeys_lt.2.2.2 c h4
          · rcases List.mem_cons.mp h4 with h5 | h5
            · rw [h5]; decide
            · rcases List.mem_cons.mp h5 with h6 | h6
              · rw [h6]; decide
              · exact isDigitChar_lt c (natToDigits_all_digits kv.2 c h6)
    · simp at h1
      rw [h1]; decide

theorem headerJson_lt : ∀ c ∈ headerJson hs256Name, c.toNat < 256 := by decide

theorem parseHeaderAlg_headerJson : parseHeaderAlg (headerJson hs256Name) = some hs256Name := by
  decide

theorem sign_splits (hmac : HmacFn) (claims : JWTClaims) (key : Bytes) :
    splitOnChar '.' (sign hmac claims key) =
      [base64Encode (strBytes (headerJson hs256Name)),
       base64Encode (strBytes (stringifyClaims claims)),
       base64Encode (hmac (base64Encode (strBytes (headerJson hs256Name)) ++ '.' ::
         base64Encode (strBytes (stringifyClaims claims))) key)] := by
  simp only [sign]
  rw [List.append_assoc, List.cons_append]
  rw [splitOnChar_append '.' _ _ (dot_not_mem_base64Encode _)]
  rw [splitOnChar_append '.' _ _ (dot_not_mem_base64Encode _)]
  rw [splitOnChar_no_sep '.' _ (dot_not_mem_base64Encode _)]

theorem parseJwt_sign (hmac : HmacFn) (claims : JWTClaims) (key : Bytes)
    (hb : ∀ d k b, b ∈ hmac d k → b < 256) :
    parseJwt (sign hmac claims key) =
      some ⟨hs256Name, claims,
        hmac (base64Encode (strBytes (headerJson hs256Name)) ++ '.' ::
          base64Encode (strBytes (stringifyClaims claims))) key,
        base64Encode (strBytes (headerJson hs256Name)) ++ '.' ::
          base64Encode (strBytes (stringifyClaims claims))⟩ := by
  have h1 := base64Decode_encode _ (strBytes_lt _ headerJson_lt)
  have h2 := base64Decode_encode _ (strBytes_lt _ (stringifyClaims_lt claims))
  have h3 := base64Decode_encode
    (hmac (base64Encode (strBytes (headerJson hs256Name)) ++ '.' ::
      base64Encode (strBytes (stringifyClaims claims))) key)
    (fun b hbb => hb _ _ b hbb)
  simp [parseJwt, sign_splits, h1, h2, h3, bytesStr_strBytes,
    parseHeaderAlg_headerJson, parseClaims_stringifyClaims]

end SfuAuth

/-! ### Auth claims (C2, C6, C7) -/

namespace SfuAuth

theorem failsExp_false_of (e : Option Nat) (now : Nat) (h : ∀ v, e = some v → now ≤ v) :
    failsExp e now = false := by
  cases e with
  | none => rfl
  | some v =>
    have hv := h v rfl
    simp [failsExp]
    omega

theorem failsNbf_false_of (e : Option Nat) (now : Nat) (h : ∀ v, e = some v → v ≤ now) :
    failsNbf e now = false := by
  cases e with
  | none => rfl
  | some v =>
    have hv := h v rfl
    simp [failsNbf]
    omega

theorem failsIat_false_of (e : Option Nat) (now : Nat) (h : ∀ v, e = some v → v ≤ now + 60) :
    failsIat e now = false := by
  cases e with
  | none => rfl
  | some v =>
    have hv := h v rfl
    simp [failsIat]
    omega

/-- C2: for every claims object and key, a token produced by `sign` is
accepted by `verify` at any time that satisfies the present temporal
claims (`nbf ≤ now`, `now ≤ exp`, `iat ≤ now + 60`), and the returned
claims object is the original one — so it contains every original
key/value pair. The HMAC primitive is an arbitrary byte-valued function,
as the source recomputes the signature with the very same
`ALGORITHM_FUNCTIONS` entry that `sign` used. -/
theorem verify_sign_roundtrip (hmac : HmacFn) (claims : JWTClaims) (key : Bytes) (now : Nat)
    (hbytes : ∀ d k b, b ∈ hmac d k → b < 256)
    (hexp : ∀ v, claims.exp = some v → now ≤ v)
    (hnbf : ∀ v, claims.nbf = some v → v ≤ now)
    (hiat : ∀ v, claims.iat = some v → v ≤ now + 60) :
    verify hmac (sign hmac claims key) key now = .ok claims := by
  simp [verify, parseJwt_sign hmac claims key hbytes, algorithmFunction, hs256Name, safeEqual,
    failsExp_false_of _ _ hexp, failsNbf_false_of _ _ hnbf, failsIat_false_of _ _ hiat]

/-- Witness for C2 at a concrete claims object, key and time. -/
theorem verify_sign_roundtrip_witness :
    verify cHmac (sign cHmac ⟨some 5, some 1, some 2, some 9⟩ [3]) [3] 4 =
      .ok ⟨some 5, some 1, some 2, some 9⟩ :=
  verify_sign_roundtrip cHmac ⟨some 5, some 1, some 2, some 9⟩ [3] 4
    (fun d k b hb => by simp [cHmac] at hb; omega)
    (fun v hv => by simp at hv; omega)
    (fun v hv => by simp at hv; omega)
    (fun v hv => by simp at hv; omega)

theorem failsExp_iff (e : Option Nat) (now : Nat) :
    failsExp e now = true ↔ ∃ v, e = some v ∧ v ≠ 0 ∧ v < now := by
  cases e <;> simp [failsExp]

theorem failsNbf_iff (e : Option Nat) (now : Nat) :
    failsNbf e now = true ↔ ∃ v, e = some v ∧ v ≠ 0 ∧ now < v := by
  cases e <;> simp [failsNbf]

theorem failsIat_iff (e : Option Nat) (now : Nat) :
    failsIat e now = true ↔ ∃ v, e = some v ∧ v ≠ 0 ∧ now + 60 < v := by
  cases e <;> simp [failsIat]

theorem algorithmFunction_eq (hmac : HmacFn) (a : List Char) (f : HmacFn)
    (h : algorithmFunction hmac a = some f) : f = hmac := by
  by_cases ha : a = hs256Name
  · simp [algorithmFunction, ha] at h
    exact h.symm
  · simp [algorithmFunction, ha] at h

/-- C6 counterexample: the claim says `verify` raises exactly when
`exp < now` (among other conditions).  A validly signed token whose `exp`
claim is `0` has `exp < now` at `now = 1`, yet `verify` returns the
decoded claims: the source guards every temporal check by JS truthiness
(`claims.exp && claims.exp < now`) and `0` is falsy. -/
theorem verify_zero_exp_counterexample :
    (parseJwt (sign cHmac { exp := some 0 } [7])).map (fun p => p.claims.exp) =
        some (some 0) ∧
      (0 : Nat) < 1 ∧
      verify cHmac (sign cHmac { exp := some 0 } [7]) [7] 1 =
        .ok { exp := some 0, nbf := none, iat := none, session_id := none } := by
  refine ⟨by decide, by decide, by decide⟩

/-- C6 (amended): `verify` raises an `AuthenticationError` cause — the only
error kind it can produce — exactly when the token fails to parse (not
three dot-separated decodable parts), the header algorithm is unknown, the
signature differs from the recomputed HMAC, or a *truthy* (present and
non-zero) temporal claim is out of range: `exp < now`, `nbf > now`, or
`iat > now + 60`; in every other case it returns the decoded claims. -/
theorem verify_error_characterization (hmac : HmacFn) (token : List Char) (key : Bytes)
    (now : Nat) :
    ((∃ e, verify hmac token key now = .error e) ↔
      (parseJwt token = none ∨
        ∃ p, parseJwt token = some p ∧
          (algorithmFunction hmac p.alg = none ∨
            p.signature ≠ hmac p.signedData key ∨
            (∃ v, p.claims.exp = some v ∧ v ≠ 0 ∧ v < now) ∨
            (∃ v, p.claims.nbf = some v ∧ v ≠ 0 ∧ now < v) ∨
            (∃ v, p.claims.iat = some v ∧ v ≠ 0 ∧ now + 60 < v)))) ∧
    (∀ p, parseJwt token = some p →
      (∃ e, verify hmac token key now = .error e) ∨
        verify hmac token key now = .ok p.claims) := by
  cases hp : parseJwt token with
  | none =>
    refine ⟨⟨fun _ => .inl rfl, fun _ => ⟨.invalidFormat, by simp [verify, hp]⟩⟩, ?_⟩
    intro p hps
    exact absurd hps (by simp)
  | some p =>
    cases halg : algorithmFunction hmac p.alg with
    | none =>
      have hverify : verify hmac token key now = .error .unsupportedAlgorithm := by
        simp [verify, hp, halg]
      refine ⟨⟨fun _ => .inr ⟨p, rfl, .inl halg⟩,
        fun _ => ⟨.unsupportedAlgorithm, hverify⟩⟩, ?_⟩
      intro q hq
      exact .inl ⟨.unsupportedAlgorithm, hverify⟩
    | some f =>
      have hfh := algorithmFunction_eq hmac p.alg f halg
      rw [hfh] at halg
      by_cases hsig : p.signature = hmac p.signedData key
      · have hseq : safeEqual p.signature (hmac p.signedData key) = true := by
          simp [safeEqual, hsig]
        cases hexp : failsExp p.claims.exp now with
        | true =>
          have hverify : verify hmac token key now = .error .expired := by
            simp [verify, hp, halg, hseq, hexp]
          refine ⟨⟨fun _ => .inr ⟨p, rfl, .inr (.inr (.inl ((failsExp_iff _ _).mp hexp)))⟩,
            fun _ => ⟨.expired, hverify⟩⟩, ?_⟩
          intro q hq
          exact .inl ⟨.expired, hverify⟩
        | false =>
          cases hnbf : failsNbf p.claims.nbf now with
          | true =>
            have hverify : verify hmac token key now = .error .notYetValid := by
              simp [verify, hp, halg, hseq, hexp, hnbf]
            refine ⟨⟨fun _ =>
              .inr ⟨p, rfl, .inr (.inr (.inr (.inl ((failsNbf_iff _ _).mp hnbf))))⟩,
              fun _ => ⟨.notYetValid, hverify⟩⟩, ?_⟩
            intro q hq
            exact .inl ⟨.notYetValid, hverify⟩
          | false =>
            cases hiat : failsIat p.claims.iat now with
            | true =>
              have hverify : verify hmac token key now = .error .issuedInFuture := by
                simp [verify, hp, halg, hseq, hexp, hnbf, hiat]
              refine ⟨⟨fun _ =>
                .inr ⟨p, rfl, .inr (.inr (.inr (.inr ((failsIat_iff _ _).mp hiat))))⟩,
                fun _ => ⟨.issuedInFuture, hverify⟩⟩, ?_⟩
              intro q hq
              exact .inl ⟨.issuedInFuture, hverify⟩
            | false =>
              have hverify : verify hmac token key now = .ok p.claims := by
                simp [verify, hp, halg, hseq, hexp, hnbf, hiat]
              constructor
              · constructor
                · intro he
                  rcases he with ⟨e, he⟩
                  rw [hverify] at he
                  exact absurd he (by simp)
                · intro hcond
                  rcases hcond with hnone | ⟨q, hq, hbad⟩
                  · exact absurd hnone (by simp)
                  · have hqp : q = p := (Option.some.inj hq.symm)
                    subst hqp
                    rcases hbad with h1 | h1 | h1 | h1 | h1
                    · rw [halg] at h1
                      exact absurd h1 (by simp)
                    · exact absurd hsig h1
                    · have := (failsExp_iff _ _).mpr h1
                      rw [hexp] at this
                      exact absurd this (by simp)
                    · have := (failsNbf_iff _ _).mpr h1
                      rw [hnbf] at this
                      exact absurd this (by simp)
                    · have := (failsIat_iff _ _).mpr h1
                      rw [hiat] at this
                      exact absurd this (by simp)
              · intro q hq
                have hqp : q = p := (Option.some.inj hq.symm)
                subst hqp
                exact .inr hverify
      · have hseq : safeEqual p.signature (hmac p.signedData key) = false := by
          simp [safeEqual]
          exact hsig
        have hverify : verify hmac token key now = .error .invalidSignature := by
          simp [verify, hp, halg, hseq]
        refine ⟨⟨fun _ => .inr ⟨p, rfl, .inr (.inl hsig)⟩,
          fun _ => ⟨.invalidSignature, hverify⟩⟩, ?_⟩
        intro q hq
        exact .inl ⟨.invalidSignature, hverify⟩

/-- Witness for C6 (amended): a one-part token fails to parse, so `verify`
raises. -/
theorem verify_error_characterization_witness :
    ∃ e, verify cHmac "bad".data [1] 0 = .error e :=
  (verify_error_characterization cHmac "bad".data [1] 0).1.mpr (.inl (by decide))

/-- C7 counterexample: the claim says every character of each token
segment belongs to the base64url alphabet (no `=` padding).  Signing the
empty claims object yields `e30=` as the claims segment — standard base64
of `\x7b\x7d` with padding — so the claim fails. -/
theorem sign_padding_counterexample :
    (splitOnChar '.' (sign cHmac {} [])).getD 1 [] = "e30=".data ∧
      '=' ∈ (splitOnChar '.' (sign cHmac {} [])).getD 1 [] := by
  refine ⟨by decide, by decide⟩

/-- C7 (amended): the token is
`base64(headerJSON) "." base64(claimsJSON) "." base64(HMAC(signedData, key))`
with `signedData = headerB64 "." claimsB64`, where `base64` is *standard*
base64 with `=` padding (Node `Buffer.toString("base64")`), not base64url;
splitting the token on `.` recovers exactly the three segments. -/
theorem sign_token_structure (hmac : HmacFn) (claims : JWTClaims) (key : Bytes) :
    sign hmac claims key =
      base64Encode (strBytes (headerJson hs256Name)) ++ '.' ::
        (base64Encode (strBytes (stringifyClaims claims)) ++ '.' ::
          base64Encode (hmac (base64Encode (strBytes (headerJson hs256Name)) ++ '.' ::
            base64Encode (strBytes (stringifyClaims claims))) key)) ∧
    splitOnChar '.' (sign hmac claims key) =
      [base64Encode (strBytes (headerJson hs256Name)),
       base64Encode (strBytes (stringifyClaims claims)),
       base64Encode (hmac (base64Encode (strBytes (headerJson hs256Name)) ++ '.' ::
         base64Encode (strBytes (stringifyClaims claims))) key)] :=
  ⟨by simp [sign], sign_splits hmac claims key⟩

end SfuAuth

/-! ### Channel claims (C1, C5, C10) -/

namespace SfuChannel

theorem setCloseTimeout_sessions (st : ChannelState) (b : Bool) (now : Nat) :
    (setCloseTimeout st b now).sessions = st.sessions := by
  cases b with
  | false => rfl
  | true => cases h : st.closeDeadline <;> simp [setCloseTimeout, h]

theorem lookup_setSession_self (m : List (Nat × MSession)) (k : Nat) (v : MSession) :
    lookupSession (setSession m k v) k = some v := by
  induction m with
  | nil => simp [setSession, lookupSession]
  | cons p rest ih =>
    by_cases h : p.1 = k
    · simp [setSession, h, lookupSession]
    · simp [setSession, h, lookupSession, ih]

theorem setSession_length_none (m : List (Nat × MSession)) (k : Nat) (v : MSession)
    (h : lookupSession m k = none) : (setSession m k v).length = m.length + 1 := by
  induction m with
  | nil => rfl
  | cons p rest ih =>
    by_cases hk : p.1 = k
    · simp [lookupSession, hk] at h
    · simp only [lookupSession, hk, if_neg] at h
      simp [setSession, hk, ih h]

theorem setSession_length_some (m : List (Nat × MSession)) (k : Nat) (v w : MSession)
    (h : lookupSession m k = some w) : (setSession m k v).length = m.length := by
  induction m with
  | nil => simp [lookupSession] at h
  | cons p rest ih =>
    by_cases hk : p.1 = k
    · simp [setSession, hk]
    · simp only [lookupSession, hk, if_neg] at h
      simp [setSession, hk, ih h]

theorem setSession_length_le (m : List (Nat × MSession)) (k : Nat) (v : MSession) :
    (setSession m k v).length ≤ m.length + 1 := by
  cases h : lookupSession m k with
  | none => rw [setSession_length_none m k v h]
  | some w => rw [setSession_length_some m k v w h]; omega

theorem eraseSession_length_le (m : List (Nat × MSession)) (k : Nat) :
    (eraseSession m k).length ≤ m.length := by
  induction m with
  | nil => simp [eraseSession]
  | cons p rest ih =>
    by_cases hk : p.1 = k
    · simp [eraseSession, hk]
    · simp only [eraseSession, hk, if_neg, not_false_iff, List.length_cons]
      omega

theorem channelJoin_sessions (st : ChannelState) (sid now : Nat) :
    (channelJoin st sid now).state.sessions =
      setSession st.sessions sid { sid := sid, gen := st.nextGen } := by
  simp only [channelJoin]
  split <;> simp [setCloseTimeout_sessions]

theorem channelJoin_deadline_of_le (st : ChannelState) (sid now : Nat)
    (h : (channelJoin st sid now).state.sessions.length ≤ 1) :
    (channelJoin st sid now).state.closeDeadline = st.closeDeadline := by
  rw [channelJoin_sessions] at h
  simp only [channelJoin]
  rw [if_neg (Nat.not_lt.mpr h)]

theorem step_length_le (st : ChannelState) (e : ChannelEvent)
    (h : st.sessions.length ≤ CHANNEL_SIZE) :
    (step st e).sessions.length ≤ CHANNEL_SIZE := by
  cases e with
  | join sid now =>
    simp only [step, staticJoin]
    by_cases hcap : st.sessions.length ≥ CHANNEL_SIZE
    · rw [if_pos hcap]
      exact h
    · rw [if_neg hcap]
      rw [channelJoin_sessions]
      have := setSession_length_le st.sessions sid { sid := sid, gen := st.nextGen }
      omega
  | sessionClose sid now =>
    simp only [step, sessionCloseEvent]
    cases hl : lookupSession st.sessions sid with
    | none => exact h
    | some s =>
      simp only [onSessionClose]
      have he := eraseSession_length_le st.sessions sid
      split
      · rw [setCloseTimeout_sessions]
        show (eraseSession st.sessions sid).length ≤ CHANNEL_SIZE
        omega
      · show (eraseSession st.sessions sid).length ≤ CHANNEL_SIZE
        omega
  | close =>
    simp [step, channelClose, CHANNEL_SIZE]

theorem runEvents_length_le (evs : List ChannelEvent) (st : ChannelState)
    (h : st.sessions.length ≤ CHANNEL_SIZE) :
    (runEvents st evs).sessions.length ≤ CHANNEL_SIZE := by
  induction evs generalizing st with
  | nil => exact h
  | cons e rest ih => exact ih (step st e) (step_length_le st e h)

/-- C1: in every state a registered channel can reach from its creation,
the session map holds at most `CHANNEL_SIZE` sessions; calling the static
`Channel.join` on a channel whose count is exactly `CHANNEL_SIZE` throws
`OvercrowdedError` and leaves the channel unchanged, while joining below
capacity succeeds and installs the new session under its id. -/
theorem channel_capacity (t0 : Nat) (evs : List ChannelEvent) (sid now : Nat) :
    (runEvents (createChannel t0) evs).sessions.length ≤ CHANNEL_SIZE ∧
    ((runEvents (createChannel t0) evs).sessions.length = CHANNEL_SIZE →
      staticJoin (runEvents (createChannel t0) evs) sid now = .error .overcrowded ∧
      step (runEvents (createChannel t0) evs) (.join sid now) =
        runEvents (createChannel t0) evs) ∧
    ((runEvents (createChannel t0) evs).sessions.length < CHANNEL_SIZE →
      ∃ o, staticJoin (runEvents (createChannel t0) evs) sid now = .ok o ∧
        lookupSession o.state.sessions sid = some o.newSession) := by
  have hinv : (runEvents (createChannel t0) evs).sessions.length ≤ CHANNEL_SIZE := by
    apply runEvents_length_le
    simp [createChannel, setCloseTimeout, CHANNEL_SIZE]
  refine ⟨hinv, ?_, ?_⟩
  · intro hfull
    have hcap : (runEvents (createChannel t0) evs).sessions.length ≥ CHANNEL_SIZE := by omega
    constructor
    · simp only [staticJoin]
      rw [if_pos hcap]
    · simp only [step, staticJoin]
      rw [if_pos hcap]
  · intro hlt
    refine ⟨channelJoin (runEvents (createChannel t0) evs) sid now, ?_, ?_⟩
    · simp only [staticJoin]
      rw [if_neg (by omega)]
    · rw [channelJoin_sessions]
      exact lookup_setSession_self _ _ _

/-- Witness for C1: after one join the channel is below capacity and a
further join succeeds and installs the session. -/
theorem channel_capacity_witness :
    ∃ o, staticJoin (runEvents (createChannel 0) [.join 5 1]) 8 2 = .ok o ∧
      lookupSession o.state.sessions 8 = some o.newSession :=
  (channel_capacity 0 [.join 5 1] 8 2).2.2 (by decide)

theorem countKey_zero_of_not_mem (m : List (Nat × MSession)) (k : Nat)
    (h : k ∉ m.map (fun p => p.1)) : countKey m k = 0 := by
  induction m with
  | nil => rfl
  | cons p rest ih =>
    simp only [List.map_cons, List.mem_cons] at h
    push_neg at h
    simp [countKey, List.filter, Ne.symm h.1]
    have := ih h.2
    simpa [countKey] using this

theorem countKey_setSession (m : List (Nat × MSession)) (k : Nat) (v : MSession)
    (hnodup : (m.map (fun p => p.1)).Nodup) : countKey (setSession m k v) k = 1 := by
  induction m with
  | nil => simp [setSession, countKey, List.filter]
  | cons p rest ih =>
    simp only [List.map_cons, List.nodup_cons] at hnodup
    by_cases hk : p.1 = k
    · simp only [setSession, hk, if_pos]
      have hz : countKey rest k = 0 := countKey_zero_of_not_mem rest k (hk ▸ hnodup.1)
      simp [countKey, List.filter] at hz ⊢
      exact hz
    · simp only [setSession, hk, if_neg, not_false_iff]
      simp [countKey, List.filter, hk]
      have := ih hnodup.2
      simpa [countKey] using this

/-- C5: joining with an id that is already present detaches the channel's
close listener from the prior session and closes it with `REPLACED`, then
installs a fresh session under that id; afterwards that session is the
only entry for the id. -/
theorem join_replaces_existing (st : ChannelState) (sid now : Nat) (old : MSession)
    (hold : lookupSession st.sessions sid = some old)
    (holdLive : old.state ≠ .closed)
    (hnodup : (st.sessions.map (fun p => p.1)).Nodup) :
    (channelJoin st sid now).replaced =
        some { old with
               hasCloseListener := false
               state := .closed
               closeCode := some .replaced } ∧
    lookupSession (channelJoin st sid now).state.sessions sid =
        some (channelJoin st sid now).newSession ∧
    (channelJoin st sid now).newSession.state = .new ∧
    (channelJoin st sid now).newSession.closeCode = none ∧
    countKey (channelJoin st sid now).state.sessions sid = 1 := by
  have hrepl : (channelJoin st sid now).replaced =
      some { old with
             hasCloseListener := false
             state := .closed
             closeCode := some .replaced } := by
    simp only [channelJoin, hold, Option.map_some]
    have : closeSession { old with hasCloseListener := false } .replaced =
        { old with
          hasCloseListener := false
          state := .closed
          closeCode := some .replaced } := by
      simp only [closeSession]
      rw [if_neg holdLive]
    simp [this]
  have hnew : (channelJoin st sid now).newSession = { sid := sid, gen := st.nextGen } := rfl
  refine ⟨hrepl, ?_, ?_, ?_, ?_⟩
  · rw [channelJoin_sessions, hnew]
    exact lookup_setSession_self _ _ _
  · rw [hnew]
  · rw [hnew]
  · rw [channelJoin_sessions]
    exact countKey_setSession _ _ _ hnodup

/-- Witness for C5 at a concrete one-session channel. -/
theorem join_replaces_existing_witness :
    countKey (channelJoin ⟨[(1, ⟨1, 0, .new, none, true⟩)], some 99, 5⟩ 1 7).state.sessions 1
      = 1 :=
  (join_replaces_existing ⟨[(1, ⟨1, 0, .new, none, true⟩)], some 99, 5⟩ 1 7
    ⟨1, 0, .new, none, true⟩ (by decide) (by decide) (by decide)).2.2.2.2

theorem smallReach_inv (t0 : Nat) (st : ChannelState) (h : SmallReach t0 st) :
    st.closeDeadline = some (t0 + timeoutsChannel) ∧ st.sessions.length ≤ 1 := by
  induction h with
  | init => exact ⟨rfl, by simp [createChannel, setCloseTimeout]⟩
  | joinStep st sid now hreach hle ih =>
    have h100 : CHANNEL_SIZE = 100 := rfl
    have hstep : step st (.join sid now) = (channelJoin st sid now).state := by
      simp only [step, staticJoin]
      rw [if_neg (by omega)]
    rw [hstep] at hle ⊢
    exact ⟨(channelJoin_deadline_of_le st sid now hle).trans ih.1, hle⟩
  | closeStep st sid now hreach ih =>
    simp only [step, sessionCloseEvent]
    cases hl : lookupSession st.sessions sid with
    | none => exact ih
    | some s =>
      simp only [onSessionClose]
      have hlen : (eraseSession st.sessions sid).length ≤ 1 :=
        le_trans (eraseSession_length_le st.sessions sid) ih.2
      rw [if_pos hlen]
      constructor
      · simp [setCloseTimeout, ih.1]
      · rw [setCloseTimeout_sessions]
        exact hlen

/-- C10: arming the idle-close timer is a no-op while one is pending, the
instance `join` disarms it only when the map holds more than one session
after insertion, and consequently a channel that never holds two
simultaneous sessions keeps the very deadline armed at creation — a single
live session never postpones or resets it. -/
theorem single_session_deadline_stable (t0 : Nat) :
    (∀ (st : ChannelState) (now d : Nat), st.closeDeadline = some d →
      setCloseTimeout st true now = st) ∧
    (∀ (st : ChannelState) (sid now : Nat),
      (channelJoin st sid now).state.sessions.length ≤ 1 →
      (channelJoin st sid now).state.closeDeadline = st.closeDeadline) ∧
    (∀ st, SmallReach t0 st → st.closeDeadline = some (t0 + timeoutsChannel)) :=
  ⟨fun st now d h => by simp [setCloseTimeout, h],
   fun st sid now h => channelJoin_deadline_of_le st sid now h,
   fun st h => (smallReach_inv t0 st h).1⟩

/-- Witness for C10: the timer armed at creation, and a no-op re-arm. -/
theorem single_session_deadline_stable_witness :
    (createChannel 3).closeDeadline = some (3 + timeoutsChannel) ∧
    setCloseTimeout ⟨[], some 7, 0⟩ true 9 = ⟨[], some 7, 0⟩ :=
  ⟨(single_session_deadline_stable 3).2.2 _ SmallReach.init,
   (single_session_deadline_stable 3).1 ⟨[], some 7, 0⟩ 9 7 rfl⟩

end SfuChannel

/-! ### Session claim (C8) -/

namespace SfuSession

/-- C8 counterexample: a session with no camera producer receives
`PRODUCTION_CHANGE{camera, active:true}`.  The info record is updated, but
the handler returns before reconciling remote consumers or broadcasting
the info — contradicting the claim that both happen "including in the case
where the session currently holds no producer of that type". -/
theorem production_change_no_producer_counterexample :
    (handleProductionChange {} .camera true).session.info.isCameraOn = some true ∧
    (handleProductionChange {} .camera true).remoteConsumersUpdated = false ∧
    (handleProductionChange {} .camera true).infoBroadcast = false := by
  refine ⟨rfl, rfl, rfl⟩

/-- C8 (amended): `PRODUCTION_CHANGE{type, active}` always updates the info
record (`isCameraOn` for camera, `isScreenSharingOn` for screen); when a
producer of that type exists it is resumed when `active` is true and
paused when `active` is false, remote consumer reconciliation runs and the
info is broadcast; when the session holds no producer of that type the
handler returns right after the info update, with no producer action, no
reconciliation and no broadcast. -/
theorem production_change_behaviour (s : ProdSession) (ty : StreamType) (active : Bool) :
    (ty = .camera →
      (handleProductionChange s ty active).session.info.isCameraOn = some active) ∧
    (ty = .screen →
      (handleProductionChange s ty active).session.info.isScreenSharingOn = some active) ∧
    (∀ p, producerOf s ty = some p →
      producerOf (handleProductionChange s ty active).session ty = some (!active) ∧
      (handleProductionChange s ty active).producerResumed = active ∧
      (handleProductionChange s ty active).producerPaused = (!active) ∧
      (handleProductionChange s ty active).remoteConsumersUpdated = true ∧
      (handleProductionChange s ty active).infoBroadcast = true) ∧
    (producerOf s ty = none →
      (handleProductionChange s ty active).producerResumed = false ∧
      (handleProductionChange s ty active).producerPaused = false ∧
      (handleProductionChange s ty active).remoteConsumersUpdated = false ∧
      (handleProductionChange s ty active).infoBroadcast = false) := by
  refine ⟨?_, ?_, ?_, ?_⟩
  · intro hty
    subst hty
    cases hcp : s.cameraProducer <;>
      simp [handleProductionChange, producerOf, setProducer, hcp]
  · intro hty
    subst hty
    cases hsp : s.screenProducer <;>
      simp [handleProductionChange, producerOf, setProducer, hsp]
  · intro p h
    cases ty with
    | audio =>
      simp only [producerOf] at h
      simp [handleProductionChange, producerOf, setProducer, h]
    | camera =>
      simp only [producerOf] at h
      simp [handleProductionChange, producerOf, setProducer, h]
    | screen =>
      simp only [producerOf] at h
      simp [handleProductionChange, producerOf, setProducer, h]
  · intro h
    cases ty with
    | audio =>
      simp only [producerOf] at h
      simp [handleProductionChange, producerOf, h]
    | camera =>
      simp only [producerOf] at h
      simp [handleProductionChange, producerOf, h]
    | screen =>
      simp only [producerOf] at h
      simp [handleProductionChange, producerOf, h]

/-- Witness for C8 at a session that holds a paused camera producer. -/
theorem production_change_behaviour_witness :
    producerOf (handleProductionChange ⟨{}, none, some true, none⟩ .camera true).session .camera
        = some false ∧
      (handleProductionChange ⟨{}, none, some true, none⟩ .camera true).infoBroadcast = true :=
  ⟨((production_change_behaviour ⟨{}, none, some true, none⟩ .camera true).2.2.1
      true rfl).1,
   ((production_change_behaviour ⟨{}, none, some true, none⟩ .camera true).2.2.1
      true rfl).2.2.2.2⟩

end SfuSession

/-! ### Gateway claim (C9) -/

namespace SfuWs

theorem lookup_erasePending (m : List (Nat × Nat)) (pid : Nat) :
    lookupPending (erasePending m pid) pid = none := by
  induction m with
  | nil => rfl
  | cons q rest ih =>
    rw [erasePending, List.filter_cons]
    by_cases h : q.1 = pid
    · rw [if_neg (by simp [h])]
      exact ih
    · rw [if_pos (by simp [h])]
      simp only [lookupPending]
      rw [if_neg h]
      exact ih

/-- C9: after the one-shot first-message handler runs, the socket is no
longer in the unauthenticated-pending map and is in the authenticated set
on every path; on a failure path the socket was closed with
`AUTHENTICATION_FAILED`, `CHANNEL_FULL` or `ERROR`, and no per-socket
close handler — the only thing that would remove it from the
authenticated set — was installed. -/
theorem ws_auth_handler_always_promotes (st : GatewayState) (pid sock : Nat)
    (outcome : AuthOutcome) (hsock : sock ∉ st.closeHandlers) :
    lookupPending (handleFirstMessage st pid sock outcome).unauthenticated pid = none ∧
    sock ∈ (handleFirstMessage st pid sock outcome).authenticated ∧
    (outcome ≠ .success →
      sock ∉ (handleFirstMessage st pid sock outcome).closeHandlers) ∧
    (outcome = .authenticationFailed →
      (sock, wsAuthenticationFailed) ∈ (handleFirstMessage st pid sock outcome).closedSockets) ∧
    (outcome = .overcrowded →
      (sock, wsChannelFull) ∈ (handleFirstMessage st pid sock outcome).closedSockets) ∧
    (outcome = .otherError →
      (sock, wsError) ∈ (handleFirstMessage st pid sock outcome).closedSockets) := by
  cases outcome <;>
    refine ⟨lookup_erasePending _ _, by simp [handleFirstMessage], ?_, ?_, ?_, ?_⟩ <;>
    intro h <;>
    simp [handleFirstMessage, hsock] at h ⊢

/-- Witness for C9 on a concrete failing handshake. -/
theorem ws_auth_handler_always_promotes_witness :
    5 ∈ (handleFirstMessage ⟨[(2, 5)], [], [], []⟩ 2 5 .authenticationFailed).authenticated ∧
    5 ∉ (handleFirstMessage ⟨[(2, 5)], [], [], []⟩ 2 5 .authenticationFailed).closeHandlers :=
  ⟨(ws_auth_handler_always_promotes ⟨[(2, 5)], [], [], []⟩ 2 5 .authenticationFailed
      (by decide)).2.1,
   (ws_auth_handler_always_promotes ⟨[(2, 5)], [], [], []⟩ 2 5 .authenticationFailed
      (by decide)).2.2.1 (by decide)⟩

end SfuWs

/-! ### Bus batching claim (C3) -/

namespace SfuBusBatch

/-- C3 counterexample: send `m1` batched at t=0 (immediate flush, timer 0
armed for t=300), send `m2` batched at t=100 (accumulates), timer 0 fires
at t=300 (flushes `m2` — new work).  The claim says the timer is then
re-armed and further batched messages only accumulate while it is armed;
in the code the callback clears `_batchTimeout` unconditionally after
`_flush`, so the handle is `none` even though the freshly scheduled
timeout (id 1, deadline 600) is still live, and a batched `m3` at t=400
is flushed immediately as one more frame instead of accumulating. -/
theorem batch_rearm_counterexample :
    (fireTimer 300 300 (batchMessage 300 100 (batchMessage 300 0 {} 10) 11) ⟨0, 300⟩).handle
        = none ∧
    ⟨1, 600⟩ ∈ (fireTimer 300 300 (batchMessage 300 100 (batchMessage 300 0 {} 10) 11)
        ⟨0, 300⟩).timers ∧
    (batchMessage 300 400
        (fireTimer 300 300 (batchMessage 300 100 (batchMessage 300 0 {} 10) 11) ⟨0, 300⟩)
        12).frames = [[10], [11], [12]] := by
  refine ⟨by decide, by decide, by decide⟩

/-- C3 (amended): with no batch timer armed, a batched message flushes the
whole queue immediately as one frame and arms a timer `batchDelay` from
now (the server config value is 300 ms); while the `_batchTimeout` handle
is set, batched messages only accumulate; when a timer fires, the queue is
flushed if non-empty — which schedules a fresh timeout — but the callback
then clears the `_batchTimeout` handle unconditionally, so after every
fire the bus treats the next batched message as an immediate flush even
though the freshly scheduled timeout is still live. -/
theorem batch_discipline (delay now : Nat) (st : BatchState) (m : Nat) (t : Timer) :
    busBatch = 300 ∧
    (st.handle = none → batchMessage delay now st m =
      ⟨[], some st.nextTid, st.timers ++ [⟨st.nextTid, now + delay⟩],
       st.frames ++ [st.queue ++ [m]], st.nextTid + 1⟩) ∧
    (∀ h, st.handle = some h → batchMessage delay now st m =
      ⟨st.queue ++ [m], st.handle, st.timers, st.frames, st.nextTid⟩) ∧
    (t ∈ st.timers → st.queue ≠ [] → fireTimer delay now st t =
      ⟨[], none, (st.timers.erase t) ++ [⟨st.nextTid, now + delay⟩],
       st.frames ++ [st.queue], st.nextTid + 1⟩) ∧
    (t ∈ st.timers → st.queue = [] → fireTimer delay now st t =
      ⟨st.queue, none, st.timers.erase t, st.frames, st.nextTid⟩) := by
  obtain ⟨q, h, ts, fr, nt⟩ := st
  refine ⟨rfl, ?_, ?_, ?_, ?_⟩
  · intro hh
    subst hh
    simp [batchMessage, flush]
  · intro hd hh
    subst hh
    simp [batchMessage]
  · intro ht hq
    simp [fireTimer, ht, flush, hq]
  · intro ht hq
    subst hq
    simp [fireTimer, ht, flush]

/-- Witness for C3: an immediate first flush arming the timer. -/
theorem batch_discipline_witness :
    batchMessage 300 5 ⟨[7], none, [], [], 0⟩ 8 = ⟨[], some 0, [⟨0, 305⟩], [[7, 8]], 1⟩ :=
  (batch_discipline 300 5 ⟨[7], none, [], [], 0⟩ 8 ⟨0, 0⟩).2.1 rfl

end SfuBusBatch

/-! ### Bus request claim (C4) -/

namespace SfuBusReq

theorem cFor_append_ne (c : List (Nat × Completion)) (rid r : Nat) (x : Completion)
    (h : ¬ r = rid) :
    ((c ++ [(r, x)]).filter (fun p => p.1 == rid)).map (fun p => p.2) =
      (c.filter (fun p => p.1 == rid)).map (fun p => p.2) := by
  have hb : (r == rid) = false := beq_eq_false_iff_ne.mpr h
  simp [List.filter_append, List.filter, hb]

theorem cFor_append_eq (c : List (Nat × Completion)) (rid : Nat) (x : Completion) :
    ((c ++ [(rid, x)]).filter (fun p => p.1 == rid)).map (fun p => p.2) =
      (c.filter (fun p => p.1 == rid)).map (fun p => p.2) ++ [x] := by
  simp [List.filter_append, List.filter]

theorem filterKey_map_not_mem (pending : List Nat) (rid : Nat) (h : rid ∉ pending) :
    (pending.map (fun r => (r, Completion.rejectedClosed))).filter (fun p => p.1 == rid)
      = [] := by
  induction pending with
  | nil => rfl
  | cons a rest ih =>
    have ha : (a == rid) = false :=
      beq_eq_false_iff_ne.mpr (fun he => h (he ▸ List.mem_cons_self _ _))
    simp only [List.map_cons, List.filter, ha]
    exact ih (fun hm => h (List.mem_cons_of_mem _ hm))

theorem filterKey_map_mem (rid : Nat) : ∀ (pending : List Nat), pending.Nodup →
    rid ∈ pending →
    (pending.map (fun r => (r, Completion.rejectedClosed))).filter (fun p => p.1 == rid)
      = [(rid, .rejectedClosed)]
  | [], _, h => absurd h (List.not_mem_nil rid)
  | a :: rest, hnd, h => by
    rcases List.mem_cons.mp h with h1 | h1
    · subst h1
      have hnr : rid ∉ rest := (List.nodup_cons.mp hnd).1
      simp only [List.map_cons, List.filter, beq_self_eq_true,
        filterKey_map_not_mem rest rid hnr]
    · have ha : (a == rid) = false :=
        beq_eq_false_iff_ne.mpr (fun he => (List.nodup_cons.mp hnd).1 (he ▸ h1))
      simp only [List.map_cons, List.filter, ha]
      exact filterKey_map_mem rid rest (List.nodup_cons.mp hnd).2 h1

theorem runBus_stable (rid : Nat) : ∀ (evs : List BusEvent) (st : ReqState),
    rid ∉ st.pending → rid ∈ keysOf st.completions →
    completionsFor rid (runBus st evs) = completionsFor rid st ∧
      rid ∉ (runBus st evs).pending ∧ rid ∈ keysOf (runBus st evs).completions
  | [], st, hp, hc => ⟨rfl, hp, hc⟩
  | e :: rest, st, hp, hc => by
    have hstep : rid ∉ (stepEvent st e).pending ∧
        rid ∈ keysOf (stepEvent st e).completions ∧
        completionsFor rid (stepEvent st e) = completionsFor rid st := by
      cases e with
      | request r =>
        by_cases hg : r ∈ st.pending ∨ r ∈ keysOf st.completions
        · rw [show stepEvent st (.request r) = st by simp [stepEvent, hg]]
          exact ⟨hp, hc, rfl⟩
        · rw [show stepEvent st (.request r) =
              { st with pending := st.pending ++ [r] } by simp [stepEvent, hg]]
          refine ⟨?_, hc, rfl⟩
          intro hm
          rcases List.mem_append.mp hm with hm1 | hm1
          · exact hp hm1
          · simp at hm1
            subst hm1
            exact (not_or.mp hg).2 hc
      | response r msg =>
        by_cases hg : r ∈ st.pending
        · have hr : ¬ r = rid := fun he => hp (he ▸ hg)
          rw [show stepEvent st (.response r msg) =
              { st with
                pending := st.pending.erase r
                completions := st.completions ++ [(r, .resolved msg)] } by
            simp [stepEvent, hg]]
          refine ⟨fun hm => hp (List.mem_of_mem_erase hm), ?_, ?_⟩
          · simp only [keysOf, List.map_append]
            exact List.mem_append.mpr (.inl hc)
          · simp only [completionsFor]
            exact cFor_append_ne st.completions rid r _ hr
        · rw [show stepEvent st (.response r msg) = st by simp [stepEvent, hg]]
          exact ⟨hp, hc, rfl⟩
      | deadline r =>
        by_cases hg : r ∈ st.pending
        · have hr : ¬ r = rid := fun he => hp (he ▸ hg)
          rw [show stepEvent st (.deadline r) =
              { st with
                pending := st.pending.erase r
                completions := st.completions ++ [(r, .rejectedTimeout)] } by
            simp [stepEvent, hg]]
          refine ⟨fun hm => hp (List.mem_of_mem_erase hm), ?_, ?_⟩
          · simp only [keysOf, List.map_append]
            exact List.mem_append.mpr (.inl hc)
          · simp only [completionsFor]
            exact cFor_append_ne st.completions rid r _ hr
        · rw [show stepEvent st (.deadline r) = st by simp [stepEvent, hg]]
          exact ⟨hp, hc, rfl⟩
      | close =>
        rw [show stepEvent st .close =
            { st with
              pending := []
              completions := st.completions ++ st.pending.map (fun r => (r, .rejectedClosed))
              closed := true } from rfl]
        refine ⟨by simp, ?_, ?_⟩
        · simp only [keysOf, List.map_append]
          exact List.mem_append.mpr (.inl hc)
        · simp only [completionsFor]
          rw [List.filter_append, filterKey_map_not_mem st.pending rid hp]
          simp
    have ih := runBus_stable rid rest (stepEvent st e) hstep.1 hstep.2.1
    exact ⟨ih.1.trans hstep.2.2, ih.2.1, ih.2.2⟩

theorem runBus_pending (rid : Nat) : ∀ (evs : List BusEvent) (st : ReqState),
    rid ∈ st.pending → st.pending.Nodup → completionsFor rid st = [] →
    completionsFor rid (runBus st evs) =
      (match firstCompleting rid evs with
       | some (.response _ m) => [.resolved m]
       | some (.deadline _) => [.rejectedTimeout]
       | some .close => [.rejectedClosed]
       | _ => ([] : List Completion))
  | [], st, hp, hnd, hc => by
    simpa [runBus, firstCompleting] using hc
  | e :: rest, st, hp, hnd, hc => by
    cases e with
    | request r =>
      have hfc : firstCompleting rid (BusEvent.request r :: rest) =
          firstCompleting rid rest := by
        simp [firstCompleting, List.find?, completes]
      rw [hfc]
      show completionsFor rid (runBus (stepEvent st (.request r)) rest) = _
      by_cases hg : r ∈ st.pending ∨ r ∈ keysOf st.completions
      · rw [show stepEvent st (.request r) = st by simp [stepEvent, hg]]
        exact runBus_pending rid rest st hp hnd hc
      · rw [show stepEvent st (.request r) =
            { st with pending := st.pending ++ [r] } by simp [stepEvent, hg]]
        apply runBus_pending rid rest
        · exact List.mem_append.mpr (.inl hp)
        · refine List.nodup_append.mpr ⟨hnd, List.nodup_singleton r, ?_⟩
          intro a ha hb
          simp at hb
          subst hb
          exact (not_or.mp hg).1 ha
        · exact hc
    | response r msg =>
      by_cases hr : r = rid
      · subst hr
        have hfc : firstCompleting r (BusEvent.response r msg :: rest) =
            some (.response r msg) := by
          simp [firstCompleting, List.find?, completes]
        rw [hfc]
        show completionsFor r (runBus (stepEvent st (.response r msg)) rest) = _
        rw [show stepEvent st (.response r msg) =
            { st with
              pending := st.pending.erase r
              completions := st.completions ++ [(r, .resolved msg)] } by
          simp [stepEvent, hp]]
        have hcf : completionsFor r
            { st with
              pending := st.pending.erase r
              completions := st.completions ++ [(r, Completion.resolved msg)] }
              = [.resolved msg] := by
          simp only [completionsFor] at hc ⊢
          rw [cFor_append_eq, hc]
          rfl
        have hstable := runBus_stable r rest
          { st with
            pending := st.pending.erase r
            completions := st.completions ++ [(r, Completion.resolved msg)] }
          (fun hm => ((List.Nodup.mem_erase_iff hnd).mp hm).1 rfl)
          (by simp [keysOf])
        rw [hstable.1, hcf]
      · have hb : (r == rid) = false := beq_eq_false_iff_ne.mpr hr
        have hfc : firstCompleting rid (BusEvent.response r msg :: rest) =
            firstCompleting rid rest := by
          simp [firstCompleting, List.find?, completes, hb]
        rw [hfc]
        show completionsFor rid (runBus (stepEvent st (.response r msg)) rest) = _
        by_cases hg : r ∈ st.pending
        · rw [show stepEvent st (.response r msg) =
              { st with
                pending := st.pending.erase r
                completions := st.completions ++ [(r, .resolved msg)] } by
            simp [stepEvent, hg]]
          apply runBus_pending rid rest
          · exact (List.mem_erase_of_ne (fun he => hr he.symm)).mpr hp
          · exact hnd.erase r
          · simp only [completionsFor] at hc ⊢
            rw [cFor_append_ne st.completions rid r _ hr]
            exact hc
        · rw [show stepEvent st (.response r msg) = st by simp [stepEvent, hg]]
          exact runBus_pending rid rest st hp hnd hc
    | deadline r =>
      by_cases hr : r = rid
      · subst hr
        have hfc : firstCompleting r (BusEvent.deadline r :: rest) =
            some (.deadline r) := by
          simp [firstCompleting, List.find?, completes]
        rw [hfc]
        show completionsFor r (runBus (stepEvent st (.deadline r)) rest) = _
        rw [show stepEvent st (.deadline r) =
            { st with
              pending := st.pending.erase r
              completions := st.completions ++ [(r, .rejectedTimeout)] } by
          simp [stepEvent, hp]]
        have hcf : completionsFor r
            { st with
              pending := st.pending.erase r
              completions := st.completions ++ [(r, Completion.rejectedTimeout)] }
              = [.rejectedTimeout] := by
          simp only [completionsFor] at hc ⊢
          rw [cFor_append_eq, hc]
          rfl
        have hstable := runBus_stable r rest
          { st with
            pending := st.pending.erase r
            completions := st.completions ++ [(r, Completion.rejectedTimeout)] }
          (fun hm => ((List.Nodup.mem_erase_iff hnd).mp hm).1 rfl)
          (by simp [keysOf])
        rw [hstable.1, hcf]
      · have hb : (r == rid) = false := beq_eq_false_iff_ne.mpr hr
        have hfc : firstCompleting rid (BusEvent.deadline r :: rest) =
            firstCompleting rid rest := by
          simp [firstCompleting, List.find?, completes, hb]
        rw [hfc]
        show completionsFor rid (runBus (stepEvent st (.deadline r)) rest) = _
        by_cases hg : r ∈ st.pending
        · rw [show stepEvent st (.deadline r) =
              { st with
                pending := st.pending.erase r
                completions := st.completions ++ [(r, .rejectedTimeout)] } by
            simp [stepEvent, hg]]
          apply runBus_pending rid rest
          · exact (List.mem_erase_of_ne (fun he => hr he.symm)).mpr hp
          · exact hnd.erase r
          · simp only [completionsFor] at hc ⊢
            rw [cFor_append_ne st.completions rid r _ hr]
            exact hc
        · rw [show stepEvent st (.deadline r) = st by simp [stepEvent, hg]]
          exact runBus_pending rid rest st hp hnd hc
    | close =>
      have hfc : firstCompleting rid (BusEvent.close :: rest) = some .close := by
        simp [firstCompleting, List.find?, completes]
      rw [hfc]
      show completionsFor rid (runBus (stepEvent st .close) rest) = _
      rw [show stepEvent st .close =
          { st with
            pending := []
            completions := st.completions ++ st.pending.map (fun r => (r, .rejectedClosed))
            closed := true } from rfl]
      have hcf : completionsFor rid
          { st with
            pending := []
            completions := st.completions ++ st.pending.map (fun r => (r, .rejectedClosed))
            closed := true } = [.rejectedClosed] := by
        simp only [completionsFor] at hc ⊢
        rw [List.filter_append, filterKey_map_mem rid st.pending hnd hp, List.map_append, hc]
        rfl
      have hstable := runBus_stable rid rest
        { st with
          pending := []
          completions := st.completions ++ st.pending.map (fun r => (r, .rejectedClosed))
          closed := true }
        (by simp)
        (by
          simp only [keysOf, List.map_append]
          refine List.mem_append.mpr (.inr ?_)
          simp
          exact hp)
      rw [hstable.1, hcf]

/-- C4: a `request` future settles at most once — its settlement list is
exactly determined by the first trace event that concerns it: it resolves
with the first incoming payload whose `responseTo` is its correlation id,
it rejects exactly when the bus closes or its deadline fires before such a
response, and once settled, later matching responses are ignored. -/
theorem request_exactly_once (rid : Nat) (evs : List BusEvent) :
    completionsFor rid (runBus ⟨[rid], [], false⟩ evs) =
      (match firstCompleting rid evs with
       | some (.response _ m) => [.resolved m]
       | some (.deadline _) => [.rejectedTimeout]
       | some .close => [.rejectedClosed]
       | _ => ([] : List Completion)) ∧
    (completionsFor rid (runBus ⟨[rid], [], false⟩ evs)).length ≤ 1 := by
  have h := runBus_pending rid evs ⟨[rid], [], false⟩ (by simp) (by simp) rfl
  refine ⟨h, ?_⟩
  rw [h]
  cases hf : firstCompleting rid evs with
  | none => simp
  | some e => cases e <;> simp

end SfuBusReq
